import Mathlib

/-!
# console-slog: the console handler (`handler.go`)

A shallow embedding of `ConsoleHandler` (package `console`): `NewHandler`, `Enabled`,
`Handle`, `WithAttrs`, `WithGroup`, together with the Go machinery they rest on
(byte slices over shared backing arrays, `sync.Pool`, `io.Writer`).

The file `handler.go` is embedded function by function.  The type `buffer` and its
methods are declared elsewhere in the package; what they do is taken from the
specification, and every such definition says so in its doc comment.
-/

namespace console

/-! ## Go byte slices over a heap of backing arrays -/

/-- A sequence of bytes. -/
abbrev Bytes := List UInt8

/-- The UTF-8 bytes of a string (a Go string is its bytes). -/
def bytesOf (s : String) : Bytes := s.toUTF8.data.toList

/-- The heap: the backing arrays allocated so far; a slice names one by its index. -/
abbrev Heap := List Bytes

/-- Modelled from the spec: the type `buffer` (LineBuffer), whose declaration is not in
`handler.go`: "a growable byte sequence" with "a notion of used length distinct from
allocated capacity".  It is a Go byte slice: a backing array, a length and a capacity
(the slice always starts at the beginning of its array, nothing here reslices from
the front). -/
structure buffer where
  arr : Nat
  len : Nat
  cap : Nat
deriving DecidableEq, Repr

/-- The used region of a slice: the first `len` bytes of its backing array. -/
def buffer.bytes (H : Heap) (b : buffer) : Bytes := (H.getD b.arr []).take b.len

/-- A slice is well formed in a heap: its length is within its capacity and its
capacity within its backing array. -/
def buffer.Valid (H : Heap) (b : buffer) : Prop :=
  b.len ≤ b.cap ∧ b.cap ≤ (H.getD b.arr []).length

instance (H : Heap) (b : buffer) : Decidable (b.Valid H) := by
  unfold buffer.Valid; infer_instance

/-- Overwrite the bytes of array `a` from offset `off` on with `bs`. -/
def writeAt (a : Bytes) (off : Nat) (bs : Bytes) : Bytes :=
  a.take off ++ bs ++ a.drop (off + bs.length)

/-- A heap together with the slice being written: the state threaded through the
write methods of `buffer`. -/
abbrev St := Heap × buffer

/-- Go's built-in `append(b, bs...)`: when the capacity suffices the bytes are written
in place, into the backing array right after the used region, and the same array is
kept; otherwise a new array is allocated (of a capacity chosen by the runtime's
growth policy `grow`, at least what is needed), the used region and `bs` are copied
into it, and the old array is left untouched. -/
def goAppend (grow : Nat → Nat → Nat) (bs : Bytes) (s : St) : St :=
  let H := s.1
  let b := s.2
  if b.len + bs.length ≤ b.cap then
    (H.set b.arr (writeAt (H.getD b.arr []) b.len bs), { b with len := b.len + bs.length })
  else
    let newcap := max (b.len + bs.length) (grow b.cap (b.len + bs.length))
    (H ++ [b.bytes H ++ bs ++ List.replicate (newcap - (b.len + bs.length)) 0],
      { arr := H.length, len := b.len + bs.length, cap := newcap })

/-! ## slog data: levels, attributes, records -/

/-- The type `slog.Level`: an integer, higher is more severe. -/
abbrev Level := Int

/-- The constant `slog.LevelDebug`. -/
def LevelDebug : Level := -4
/-- The constant `slog.LevelInfo`. -/
def LevelInfo : Level := 0
/-- The constant `slog.LevelWarn`. -/
def LevelWarn : Level := 4
/-- The constant `slog.LevelError`. -/
def LevelError : Level := 8

/-- The interface `slog.Leveler`, with its two standard implementations: a fixed
`slog.Level`, and a `*slog.LevelVar` whose value can change while the program runs
(it names a cell of the world's `levelVars`). -/
inductive Leveler where
  | ofLevel (l : Level)
  | ofLevelVar (ref : Nat)
deriving DecidableEq, Repr

/-- The method `Level()` of a `slog.Leveler`, given the current values of the level
variables (a fresh `LevelVar` holds `LevelInfo`). -/
def Leveler.level (vars : List Level) : Leveler → Level
  | .ofLevel l => l
  | .ofLevelVar ref => vars.getD ref LevelInfo

mutual
/-- The type `slog.Value`, by kind; a group is a list of attributes. -/
inductive Value where
  | String (s : String)
  | Int64 (i : Int)
  | Bool (b : Bool)
  | Duration (ns : Int)
  | Time (unixNano : Int)
  | Any (text : String)
  | Group (as : AttrList)
/-- The type `slog.Attr`: a key and a value. -/
inductive Attr where
  | mk (Key : String) (Value : Value)
/-- The attributes of a group value, in order. -/
inductive AttrList where
  | nil
  | cons (a : Attr) (rest : AttrList)
end

/-- The type `slog.Record`, as far as `Handle` reads it; `attrs` is what `rec.Attrs`
iterates over, in that order. -/
structure Record where
  Time : Int
  Message : String
  Level : Level
  PC : Nat
  attrs : List Attr

/-- A Go `error` value; `none : Option error` is `nil`. -/
abbrev error := String

/-! ## The environment of `handler.go` -/

/-- What `handler.go` takes from outside the file.

Modelled from the spec: the rendering methods of `buffer`, which are not in
`handler.go`.  The spec gives them as "semantic append operations" on an
"append-only byte sequence": each one appends bytes that are determined by its
arguments.  The bytes themselves (`timestamp`, `level`, `source`, `message`, `attr`,
`newline`) are left open here, so that what is proved holds for every such rendering.
`grow` is the growth policy of Go's `append`, `cwd` the package variable read from
`os.Getwd()`. -/
structure Env where
  timestamp : Int → Bytes
  level : Level → Bytes
  source : Nat → String → Bytes
  message : String → Bytes
  attr : Attr → String → Bytes
  newline : Bytes
  grow : Nat → Nat → Nat
  cwd : String

/-- Modelled from the spec: `buffer.writeTimestamp` (not in `handler.go`), "appends a
fixed-width textual timestamp". -/
def buffer.writeTimestamp (E : Env) (t : Int) (s : St) : St :=
  goAppend E.grow (E.timestamp t) s

/-- Modelled from the spec: `buffer.writeLevel` (not in `handler.go`), "appends a
colorized severity tag". -/
def buffer.writeLevel (E : Env) (l : Level) (s : St) : St :=
  goAppend E.grow (E.level l) s

/-- Modelled from the spec: `buffer.writeSource` (not in `handler.go`), which appends
the call site as a path relative to `baseDir`. -/
def buffer.writeSource (E : Env) (pc : Nat) (baseDir : String) (s : St) : St :=
  goAppend E.grow (E.source pc baseDir) s

/-- Modelled from the spec: `buffer.writeMessage` (not in `handler.go`), "appends the
message". -/
def buffer.writeMessage (E : Env) (msg : String) (s : St) : St :=
  goAppend E.grow (E.message msg) s

/-- Modelled from the spec: `buffer.writeAttr` (not in `handler.go`), which appends the
rendering of one attribute under a group prefix. -/
def buffer.writeAttr (E : Env) (a : Attr) (group : String) (s : St) : St :=
  goAppend E.grow (E.attr a group) s

/-- Modelled from the spec: `buffer.copy` (not in `handler.go`), "appends a
byte-for-byte copy of another buffer's used region; does not alias storage". -/
def buffer.copy (E : Env) (src : buffer) (s : St) : St :=
  goAppend E.grow (src.bytes s.1) s

/-- Modelled from the spec: `buffer.NewLine` (not in `handler.go`), "appends the line
terminator". -/
def buffer.NewLine (E : Env) (s : St) : St :=
  goAppend E.grow E.newline s

/-- Modelled from the spec: `buffer.Clip` (not in `handler.go`), "shrinks allocated
capacity to exactly the used length". -/
def buffer.Clip (b : buffer) : buffer := { b with cap := b.len }

/-- Modelled from the spec: `buffer.Reset` (not in `handler.go`), "sets used length to
zero without deallocating". -/
def buffer.Reset (b : buffer) : buffer := { b with len := 0 }

/-! ## The sink: `io.Writer` -/

/-- An `io.Writer`: the payload of every `Write` call it has received, in order, and
the outcomes (byte count and error) its coming `Write` calls will have; when the
list of outcomes is used up a call takes the whole payload and succeeds. -/
structure Writer where
  written : List Bytes
  outcomes : List (Nat × Option error)
deriving DecidableEq, Repr

/-- One call `w.Write(p)`: the writer afterwards, the byte count and the error. -/
def Writer.Write (w : Writer) (p : Bytes) : Writer × Nat × Option error :=
  match w.outcomes with
  | [] => ({ written := w.written ++ [p], outcomes := [] }, p.length, none)
  | r :: rest => ({ written := w.written ++ [p], outcomes := rest }, r.1, r.2)

/-- Modelled from the spec: `buffer.WriteTo` (not in `handler.go`), which "writes the
used region to the sink in one call, returning the byte count and any sink error".
That sentence does not say what the buffer holds afterwards.  What is taken here is an
assumption about the absent method, the one under which `handler.go` meets the pool
contract of the spec ("`acquire()` returns a LineBuffer with zero used length (either
fresh or reused)"): after a write without error the used length is zero (the spec
calls the operation a flush), after a failed one the content is still there (the
spec has `Reset` "for safe pool return after a write failure").  `Handle` itself
calls `Reset` on the failure path only and puts the buffer back as `WriteTo` left
it on the other; that every pooled buffer is empty therefore rests on this
assumption and is not a finding about `handler.go`. -/
def buffer.WriteTo (H : Heap) (b : buffer) (out : Writer) :
    buffer × Writer × Nat × Option error :=
  match out.Write (b.bytes H) with
  | (out1, n, some e) => (b, out1, n, some e)
  | (out1, n, none) => (b.Reset, out1, n, none)

/-! ## The world: heap, buffer pool, sinks, level variables, option structs -/

/-- The struct `HandlerOptions`; a `nil` `Level` is `none`. -/
structure HandlerOptions where
  AddSource : Bool
  Level : Option Leveler
deriving DecidableEq, Repr

/-- Everything `handler.go` reads and writes outside a handler value: the heap of
backing arrays, the content of the package variable `bufferPool`, the sinks
(`io.Writer` values, named by index), the current values of the `LevelVar`s, and the
`HandlerOptions` structs that have been allocated (a `*HandlerOptions` is an index
into `options`; the caller of `NewHandler` and the handler share the struct). -/
structure World where
  heap : Heap
  pool : List buffer
  sinks : List Writer
  levelVars : List Level
  options : List HandlerOptions
deriving DecidableEq

/-- The `New` function of `bufferPool`: `buffer{}`, an empty slice with no capacity. -/
def bufferPool.New : buffer := { arr := 0, len := 0, cap := 0 }

/-- The call `bufferPool.Get()`: `sync.Pool` hands out one of the items that were put
into it, removing it (`pick` says which), or else a new item made by `New`. -/
def bufferPool.Get (pool : List buffer) (pick : Option Nat) : buffer × List buffer :=
  match pick with
  | none => (bufferPool.New, pool)
  | some i =>
    match pool.get? i with
    | some b => (b, pool.eraseIdx i)
    | none => (bufferPool.New, pool)

/-- The call `bufferPool.Put(buf)`. -/
def bufferPool.Put (pool : List buffer) (buf : buffer) : List buffer := pool ++ [buf]

/-! ## `handler.go` -/

/-- The struct `ConsoleHandler`.  `opts` is a pointer to a `HandlerOptions` struct of the
world (`none` is `nil`), `out` names a sink of the world (an index with no sink
behind it is a `nil` writer), `context` is a slice into the heap. -/
structure ConsoleHandler where
  opts : Option Nat
  out : Nat
  group : String
  context : buffer
deriving DecidableEq, Repr

/-- The function `NewHandler`.  With a `nil` `opts` a new zero `HandlerOptions` is
allocated; when the `Level` of the struct `opts` points to is `nil`, `LevelInfo` is
written into that struct, the caller's own when the caller passed one; the handler
keeps the pointer, starts at the root group and has a `nil` context.  The result is
the handler and the world with the struct as `NewHandler` leaves it. -/
def NewHandler (out : Nat) (opts : Option Nat) (w : World) : ConsoleHandler × World :=
  -- if opts == nil { opts = new(HandlerOptions) }
  let alloc : Nat × List HandlerOptions :=
    match opts with
    | none => (w.options.length, w.options ++ [{ AddSource := false, Level := none }])
    | some p => (p, w.options)
  -- if opts.Level == nil { opts.Level = slog.LevelInfo }
  let options : List HandlerOptions :=
    match alloc.2.get? alloc.1 with
    | some o =>
      match o.Level with
      | none => alloc.2.set alloc.1 { o with Level := some (Leveler.ofLevel LevelInfo) }
      | some _ => alloc.2
    | none => alloc.2
  ({ opts := some alloc.1, out := out, group := "",
     context := { arr := 0, len := 0, cap := 0 } },
   { w with options := options })

/-- The method `Enabled`: `l >= h.opts.Level.Level()`, read through the pointer `h.opts`
in the world as it is at the call; `none` is the panic of a `nil` `opts` or a `nil`
`Level`. -/
def ConsoleHandler.Enabled (h : ConsoleHandler) (w : World) (l : Level) : Option Bool :=
  match h.opts with
  | none => none
  | some p =>
    match w.options.get? p with
    | none => none
    | some opts =>
      match opts.Level with
      | none => none
      | some lv => some (decide (l ≥ lv.level w.levelVars))

/-- The loop of `Handle` over the record's attributes:
`rec.Attrs(func(a) { buf.writeAttr(a, h.group) })`; also the loop of `WithAttrs`. -/
def writeAttrs (E : Env) (group : String) (attrs : List Attr) (s : St) : St :=
  attrs.foldl (fun s a => buffer.writeAttr E a group s) s

/-- The method `Handle`.  `pick` is the choice `sync.Pool` makes in `Get`.  The result
is the world afterwards and the error returned; `none` is a panic (a `nil` `opts`,
or a `nil` writer).  `h.opts.AddSource` is read through the pointer. -/
def ConsoleHandler.Handle (E : Env) (h : ConsoleHandler) (rec : Record)
    (pick : Option Nat) (w : World) : Option (World × Option error) :=
  let got := bufferPool.Get w.pool pick
  let s : St := (w.heap, got.1)
  let s := buffer.writeTimestamp E rec.Time s
  let s := buffer.writeLevel E rec.Level s
  match h.opts with
  | none => none
  | some p =>
    match w.options.get? p with
    | none => none
    | some opts =>
      let s := if opts.AddSource && decide (rec.PC > 0)
        then buffer.writeSource E rec.PC E.cwd s else s
      let s := buffer.writeMessage E rec.Message s
      let s := buffer.copy E h.context s
      let s := writeAttrs E h.group rec.attrs s
      let s := buffer.NewLine E s
      match w.sinks.get? h.out with
      | none => none
      | some out =>
        match buffer.WriteTo s.1 s.2 out with
        | (buf, out1, _, some err) =>
          let buf := buf.Reset
          some ({ w with heap := s.1, pool := bufferPool.Put got.2 buf,
                         sinks := w.sinks.set h.out out1 }, some err)
        | (buf, out1, _, none) =>
          some ({ w with heap := s.1, pool := bufferPool.Put got.2 buf,
                         sinks := w.sinks.set h.out out1 }, none)

/-- The method `WithAttrs`: the attributes are appended to the slice `h.context`, the
result is clipped, and the new handler keeps `opts`, `out` and `group`. -/
def ConsoleHandler.WithAttrs (E : Env) (h : ConsoleHandler) (attrs : List Attr)
    (H : Heap) : ConsoleHandler × Heap :=
  let s := writeAttrs E h.group attrs (H, h.context)
  let newCtx := s.2.Clip
  ({ opts := h.opts, out := h.out, group := h.group, context := newCtx }, s.1)

/-- The method `WithGroup`. -/
def ConsoleHandler.WithGroup (h : ConsoleHandler) (name : String) : ConsoleHandler :=
  let name := if h.group ≠ "" then h.group ++ "." ++ name else name
  { opts := h.opts, out := h.out, group := name, context := h.context }

/-! ## The handlers of a running program -/

/-- A program state: the world, and the handlers the program holds. -/
structure System where
  world : World
  handlers : List ConsoleHandler

/-- The program states that can be reached: from a world with an empty pool and no
handler yet, by `NewHandler` on a writer that exists (with `nil` or a pointer to a
struct that exists), `WithAttrs` and `WithGroup` on a handler the program holds,
`Handle` on such a handler (when it returns), `LevelVar.Set`, `sync.Pool` dropping
an item, and the program writing a `HandlerOptions` struct it holds a pointer to. -/
inductive Reachable (E : Env) : System → Prop where
  | init (heap : Heap) (sinks : List Writer) (levelVars : List Level)
      (options : List HandlerOptions) :
      Reachable E ⟨⟨heap, [], sinks, levelVars, options⟩, []⟩
  | newHandler (S : System) (out : Nat) (opts : Option Nat) :
      Reachable E S → out < S.world.sinks.length →
      (∀ p, opts = some p → p < S.world.options.length) →
      Reachable E ⟨(NewHandler out opts S.world).2,
        (NewHandler out opts S.world).1 :: S.handlers⟩
  | withAttrs (S : System) (h : ConsoleHandler) (attrs : List Attr) :
      Reachable E S → h ∈ S.handlers →
      Reachable E ⟨{ S.world with heap := (h.WithAttrs E attrs S.world.heap).2 },
        (h.WithAttrs E attrs S.world.heap).1 :: S.handlers⟩
  | withGroup (S : System) (h : ConsoleHandler) (name : String) :
      Reachable E S → h ∈ S.handlers →
      Reachable E ⟨S.world, h.WithGroup name :: S.handlers⟩
  | handle (S : System) (h : ConsoleHandler) (rec : Record) (pick : Option Nat)
      (w1 : World) (err : Option error) :
      Reachable E S → h ∈ S.handlers → h.Handle E rec pick S.world = some (w1, err) →
      Reachable E ⟨w1, S.handlers⟩
  | setLevel (S : System) (ref : Nat) (l : Level) :
      Reachable E S →
      Reachable E ⟨{ S.world with levelVars := S.world.levelVars.set ref l }, S.handlers⟩
  | poolDrop (S : System) (i : Nat) :
      Reachable E S →
      Reachable E ⟨{ S.world with pool := S.world.pool.eraseIdx i }, S.handlers⟩
  | setOptions (S : System) (p : Nat) (o : HandlerOptions) :
      Reachable E S →
      Reachable E ⟨{ S.world with options := S.world.options.set p o }, S.handlers⟩

/-- The arrays that hold the context of some handler. -/
def ctxArray (hs : List ConsoleHandler) (i : Nat) : Prop :=
  ∃ h ∈ hs, h.context.arr = i ∧ 0 < h.context.cap

/-- The invariant of the reachable states: every handler points to an options struct
that exists and has a writer; every context slice is well formed and full up to its
capacity; every buffer in the pool is well formed and empty; no pool buffer with room
is on the array of a context. -/
structure Inv (S : System) : Prop where
  opts : ∀ h ∈ S.handlers, ∃ p, h.opts = some p ∧ p < S.world.options.length
  out : ∀ h ∈ S.handlers, h.out < S.world.sinks.length
  ctx : ∀ h ∈ S.handlers, h.context.Valid S.world.heap ∧ h.context.cap = h.context.len
  pool : ∀ b ∈ S.world.pool, b.Valid S.world.heap ∧ b.len = 0
  sep : ∀ b ∈ S.world.pool, b.cap = 0 ∨ ¬ ctxArray S.handlers b.arr

/-- The handlers derived from `h0`: `h0` itself, and what `WithAttrs` (in any heap) and
`WithGroup` return on a derived handler. -/
inductive Derived (E : Env) (h0 : ConsoleHandler) : ConsoleHandler → Prop where
  | self : Derived E h0 h0
  | withAttrs (h : ConsoleHandler) (attrs : List Attr) (H : Heap) :
      Derived E h0 h → Derived E h0 (h.WithAttrs E attrs H).1
  | withGroup (h : ConsoleHandler) (name : String) :
      Derived E h0 h → Derived E h0 (h.WithGroup name)

/-- The minimum level of C2, for `NewHandler(out, opts)` called in world `w0` and
`Enabled` called in world `w`: the value in `w` of `opts.Level.Level()` when `opts`
and `opts.Level` were not `nil` at the call of `NewHandler`, `LevelInfo` otherwise. -/
def configuredMinimum (opts : Option Nat) (w0 w : World) : Level :=
  match opts with
  | none => LevelInfo
  | some p =>
    match w0.options.get? p with
    | none => LevelInfo
    | some o =>
      match o.Level with
      | none => LevelInfo
      | some lv => lv.level w.levelVars

/-- What holds of a slice `s.2` along a run of appends that started in heap `H0` from
slice `b0`, with respect to a set `P` of arrays of `H0` to be left alone: the slice
is well formed, the heap has only grown and no array has shrunk, the arrays in `P`
are as they were, the slice cannot write into one of them (it is full, or on a new
array, or on an array outside `P`), and it is on the array it started on, with the
capacity it started with, or on a new array. -/
structure Owned (H0 : Heap) (b0 : buffer) (P : Nat → Prop) (s : St) : Prop where
  valid : s.2.Valid s.1
  grows : H0.length ≤ s.1.length
  mono : ∀ i, (H0.getD i []).length ≤ (s.1.getD i []).length
  frame : ∀ i, i < H0.length → P i → s.1.getD i [] = H0.getD i []
  away : s.2.cap = s.2.len ∨ H0.length ≤ s.2.arr ∨ ¬ P s.2.arr
  origin : (s.2.arr = b0.arr ∧ s.2.cap = b0.cap) ∨ H0.length ≤ s.2.arr

/-! ## A rendering to evaluate with

The line format of the spec, section 6:
`<timestamp> <level> [<source>] <message> <key1>=<value1> ...` and a line terminator,
keys of nested groups dot-qualified, values with whitespace or `=` quoted. -/

/-- Modelled from the spec: the quoting of the absent `buffer.writeMessage` and
`buffer.writeAttr`: a text "containing whitespace or the `=` delimiter" is quoted. -/
def quoteText (s : String) : String :=
  if s.toList.any (fun c => c.isWhitespace || c == '=') then "\"" ++ s ++ "\"" else s

/-- Modelled from the spec: the key of an attribute under a group prefix in the absent
`buffer.writeAttr`: "a group `g` containing attribute `k` renders as `g.k=value`". -/
def qualify (group key : String) : String :=
  if group = "" then key else group ++ "." ++ key

mutual
/-- Modelled from the spec: the text of one attribute in the absent `buffer.writeAttr`:
"appends `key=value`; for nested-group values, recurses with `groupPrefix` extended by
the group's own dotted name"; fields are separated by a space. -/
def attrText (group : String) : Attr → String
  | .mk key v => valueText (qualify group key) v
/-- Modelled from the spec: the text of a value under its qualified key in the absent
`buffer.writeAttr`: "numbers in decimal, booleans as literal tokens, ... errors via
their message text"; the human format of durations and times is not given by the spec,
they stand here as their decimal count. -/
def valueText (qkey : String) : Value → String
  | .String s => " " ++ qkey ++ "=" ++ quoteText s
  | .Int64 i => " " ++ qkey ++ "=" ++ toString i
  | .Bool b => " " ++ qkey ++ "=" ++ (if b then "true" else "false")
  | .Duration ns => " " ++ qkey ++ "=" ++ toString ns ++ "ns"
  | .Time t => " " ++ qkey ++ "=" ++ toString t
  | .Any text => " " ++ qkey ++ "=" ++ quoteText text
  | .Group as => attrListText qkey as
/-- Modelled from the spec: the text of the attributes of a group in the absent
`buffer.writeAttr`, each under the group's dotted name. -/
def attrListText (group : String) : AttrList → String
  | .nil => ""
  | .cons a rest => attrText group a ++ attrListText group rest
end

/-- Modelled from the spec: the severity tag of the absent `buffer.writeLevel`, a tag
per named level and "the numeric offset from the nearest named level" for the others;
the colour codes are not given by the spec and are left out. -/
def levelText (l : Level) : String :=
  let off (d : Int) : String := if d = 0 then "" else if d > 0 then "+" ++ toString d else toString d
  if l < LevelInfo then "DBG" ++ off (l - LevelDebug)
  else if l < LevelWarn then "INF" ++ off (l - LevelInfo)
  else if l < LevelError then "WRN" ++ off (l - LevelWarn)
  else "ERR" ++ off (l - LevelError)

/-- Modelled from the spec: a rendering in the line format of section 6, for evaluating
the handler on concrete records.  What the spec leaves open stands as plain text: the
timestamp as its decimal count, the call site as `pc` and its number, the line
terminator as a line feed; `append` doubles the capacity. -/
def specEnv : Env where
  timestamp := fun t => bytesOf (toString t)
  level := fun l => bytesOf (" " ++ levelText l)
  source := fun pc _ => bytesOf (" pc" ++ toString pc)
  message := fun m => bytesOf (" " ++ quoteText m)
  attr := fun a group => bytesOf (attrText group a)
  newline := bytesOf "\n"
  grow := fun cap _ => 2 * cap
  cwd := "/"

/-- The attribute `key=value` with a string value, as `slog.String(key, value)`. -/
def Attr.ofString (key value : String) : Attr := .mk key (.String value)


/-! ## The example program (`example/main.go`) -/

/-- The options of the example: `Level: slog.LevelDebug, AddSource: true`. -/
def demoOpts : HandlerOptions := { AddSource := true, Level := some (.ofLevel LevelDebug) }

/-- The world before the example builds its handler: no array allocated, an empty
pool, one writer (standard error) that has received nothing and will accept every
write, and the options struct of the example, at address 0. -/
def demoWorld : World :=
  { heap := [], pool := [], sinks := [⟨[], []⟩], levelVars := [], options := [demoOpts] }

/-- The handler of the example: `console.NewHandler(os.Stderr, &console.HandlerOptions{...})`. -/
def demoRoot : ConsoleHandler := (NewHandler 0 (some 0) demoWorld).1

/-- A world with a writer and one zero `HandlerOptions` struct, at address 0, that the
program holds a pointer to. -/
def zeroOptsWorld : World :=
  { heap := [], pool := [], sinks := [⟨[], []⟩], levelVars := [],
    options := [{ AddSource := false, Level := none }] }


/-- The state of the example once the handler is built. -/
def demoSystem : System := { world := demoWorld, handlers := [demoRoot] }

/-- The record of `slog.Info("Hello world!", "foo", "bar")`, at time 0, called from
program counter 7. -/
def demoRecord : Record :=
  { Time := 0, Message := "Hello world!", Level := LevelInfo, PC := 7,
    attrs := [Attr.ofString "foo" "bar"] }

/-- A record below `LevelInfo`: `slog.Debug("Debug message")`. -/
def debugRecord : Record :=
  { Time := 0, Message := "Debug message", Level := LevelDebug, PC := 0, attrs := [] }

/-- A writer whose next `Write` fails, having taken 3 bytes. -/
def failingWriter : Writer := { written := [], outcomes := [(3, some "disk full")] }

/-- The record of `logger.Info("group info", "attr", "value")`. -/
def groupRecord : Record :=
  { Time := 0, Message := "group info", Level := LevelInfo, PC := 7,
    attrs := [Attr.ofString "attr" "value"] }

/-- The example handler after `With("foo", "bar")`, and the heap it leaves. -/
def demoBound : ConsoleHandler × Heap :=
  demoRoot.WithAttrs specEnv [Attr.ofString "foo" "bar"] demoWorld.heap

/-- The state of the example with the root handler, the handler bound to `foo=bar`,
and two handlers derived from that one by entering the groups `a` and `b`. -/
def siblingSystem : System :=
  { world := { demoWorld with heap := demoBound.2 },
    handlers := [demoBound.1.WithGroup "b", demoBound.1.WithGroup "a", demoBound.1, demoRoot] }

/-! ## What a rendering is made of -/

/-- The rendering of a list of attributes under a group prefix: the rendering of each
one, in list order. -/
def attrsBytes (E : Env) (group : String) (attrs : List Attr) : Bytes :=
  attrs.flatMap (fun a => E.attr a group)

/-- The source field of a line: the rendered call site when `AddSource` is set and the
record has a program counter, nothing otherwise. -/
def sourceBytes (E : Env) (opts : HandlerOptions) (rec : Record) : Bytes :=
  if opts.AddSource = true ∧ rec.PC ≠ 0 then E.source rec.PC E.cwd else []

/-- The line of a record: timestamp, level, source, message, the bound context, the
record's attributes under the group, the line terminator. -/
def lineBytes (E : Env) (opts : HandlerOptions) (group : String) (ctx : Bytes)
    (rec : Record) : Bytes :=
  E.timestamp rec.Time ++ E.level rec.Level ++ sourceBytes E opts rec ++
    E.message rec.Message ++ ctx ++ attrsBytes E group rec.attrs ++ E.newline

/-! ## Go's `append`: what it returns, what it leaves alone -/

theorem getD_set_self (H : Heap) (i : Nat) (x : Bytes) (hi : i < H.length) :
    (H.set i x).getD i [] = x := by
  simp [List.getD_eq_getElem?_getD, List.getElem?_set, hi]

theorem getD_set_other (H : Heap) (i j : Nat) (x : Bytes) (hij : j ≠ i) :
    (H.set i x).getD j [] = H.getD j [] := by
  simp [List.getD_eq_getElem?_getD, List.getElem?_set, Ne.symm hij]

theorem getD_out_of_range (H : Heap) (i : Nat) (hi : H.length ≤ i) : H.getD i [] = [] := by
  simp [List.getD_eq_getElem?_getD, List.getElem?_eq_none hi]

theorem getD_append_old (H : Heap) (x : Bytes) (i : Nat) (hi : i < H.length) :
    (H ++ [x]).getD i [] = H.getD i [] := by
  simp [List.getD_eq_getElem?_getD, List.getElem?_append_left hi]

theorem getD_append_new (H : Heap) (x : Bytes) : (H ++ [x]).getD H.length [] = x := by
  simp [List.getD_eq_getElem?_getD]

theorem lt_length_of_getD_ne_nil (H : Heap) (i : Nat) (h : 0 < (H.getD i []).length) :
    i < H.length := by
  by_contra hc
  rw [getD_out_of_range H i (Nat.le_of_not_lt hc)] at h
  simp at h

theorem bytes_length (H : Heap) (b : buffer) (hv : b.Valid H) : (b.bytes H).length = b.len := by
  unfold buffer.bytes
  rw [List.length_take]
  exact Nat.min_eq_left (le_trans hv.1 hv.2)

theorem writeAt_nil (a : Bytes) (off : Nat) : writeAt a off [] = a := by
  simp [writeAt]

theorem writeAt_length (a : Bytes) (off : Nat) (bs : Bytes) (h : off + bs.length ≤ a.length) :
    (writeAt a off bs).length = a.length := by
  simp only [writeAt, List.length_append, List.length_take, List.length_drop]
  omega

theorem writeAt_take (a : Bytes) (off : Nat) (bs : Bytes) (h : off ≤ a.length) :
    (writeAt a off bs).take (off + bs.length) = a.take off ++ bs := by
  have hl : (a.take off ++ bs).length = off + bs.length := by
    simp [List.length_take, Nat.min_eq_left h]
  unfold writeAt
  rw [← hl, List.take_left]

theorem writeAt_take_before (a : Bytes) (off n : Nat) (bs : Bytes) (h : off ≤ a.length)
    (hn : n ≤ off) : (writeAt a off bs).take n = a.take n := by
  unfold writeAt
  rw [List.append_assoc, List.take_append_of_le_length (by simp [List.length_take]; omega),
    List.take_take, Nat.min_eq_left hn]

/-- The array a slice with room refers to exists. -/
theorem arr_lt_of_room (H : Heap) (b : buffer) (hv : b.Valid H) (h : 0 < b.cap) :
    b.arr < H.length :=
  lt_length_of_getD_ne_nil H b.arr (lt_of_lt_of_le h hv.2)

/-- The bytes of the slice after `append` are the bytes before followed by the appended
ones: whatever was left in the backing array beyond the used region is overwritten
or left behind, never read. -/
theorem goAppend_bytes (g : Nat → Nat → Nat) (bs : Bytes) (H : Heap) (b : buffer)
    (hv : b.Valid H) :
    (goAppend g bs (H, b)).2.bytes (goAppend g bs (H, b)).1 = b.bytes H ++ bs := by
  unfold goAppend
  by_cases hfit : b.len + bs.length ≤ b.cap
  · simp only [hfit, if_true]
    unfold buffer.bytes
    by_cases hc : 0 < b.cap
    · have hi := arr_lt_of_room H b hv hc
      simp only [getD_set_self H b.arr _ hi]
      exact writeAt_take _ _ _ (le_trans hv.1 hv.2)
    · have hc0 : b.cap = 0 := by omega
      have hl0 : b.len = 0 := by have := hv.1; omega
      have hbs : bs = [] := by
        apply List.eq_nil_of_length_eq_zero; omega
      subst hbs
      simp [hl0]
  · simp only [hfit, if_false]
    unfold buffer.bytes
    simp only [getD_append_new]
    have hl := bytes_length H b hv
    unfold buffer.bytes at hl
    have : (List.take b.len (H.getD b.arr []) ++ bs).length = b.len + bs.length := by
      rw [List.length_append, hl]
    rw [← this, List.take_left]

/-- The slice after `append` is well formed in the heap after it. -/
theorem goAppend_valid (g : Nat → Nat → Nat) (bs : Bytes) (H : Heap) (b : buffer)
    (hv : b.Valid H) :
    (goAppend g bs (H, b)).2.Valid (goAppend g bs (H, b)).1 := by
  unfold goAppend
  by_cases hfit : b.len + bs.length ≤ b.cap
  · simp only [hfit, if_true]
    unfold buffer.Valid
    refine ⟨hfit, ?_⟩
    by_cases hc : 0 < b.cap
    · have hi := arr_lt_of_room H b hv hc
      simp only [getD_set_self H b.arr _ hi]
      rw [writeAt_length _ _ _ (le_trans hfit hv.2)]
      exact hv.2
    · simp only []
      omega
  · simp only [hfit, if_false]
    unfold buffer.Valid
    simp only [getD_append_new]
    have hl := bytes_length H b hv
    simp only [List.length_append, List.length_replicate, hl]
    constructor
    · exact le_max_left _ _
    · have := le_max_left (b.len + bs.length) (g b.cap (b.len + bs.length))
      omega

/-- The heap never shrinks under `append`. -/
theorem goAppend_length (g : Nat → Nat → Nat) (bs : Bytes) (H : Heap) (b : buffer) :
    H.length ≤ (goAppend g bs (H, b)).1.length := by
  unfold goAppend
  by_cases hfit : b.len + bs.length ≤ b.cap
  · simp [hfit]
  · simp [hfit]

/-- The slice returned by `append` is either on the same array, with the same capacity,
or on an array that did not exist before. -/
theorem goAppend_arr (g : Nat → Nat → Nat) (bs : Bytes) (H : Heap) (b : buffer) :
    ((goAppend g bs (H, b)).2.arr = b.arr ∧ (goAppend g bs (H, b)).2.cap = b.cap ∧
        b.len + bs.length ≤ b.cap) ∨
      (goAppend g bs (H, b)).2.arr = H.length := by
  unfold goAppend
  by_cases hfit : b.len + bs.length ≤ b.cap
  · left; simp [hfit]
  · right; simp [hfit]

/-- The frame of `append`: every array other than the slice's own is left as it was. -/
theorem goAppend_frame (g : Nat → Nat → Nat) (bs : Bytes) (H : Heap) (b : buffer)
    (i : Nat) (hi : i < H.length) (hne : i ≠ b.arr) :
    (goAppend g bs (H, b)).1.getD i [] = H.getD i [] := by
  unfold goAppend
  by_cases hfit : b.len + bs.length ≤ b.cap
  · simp only [hfit, if_true]
    exact getD_set_other H b.arr i _ hne
  · simp only [hfit, if_false]
    exact getD_append_old H _ i hi

/-- The frame of `append` on the slice's own array: the used region is left as it was. -/
theorem goAppend_frame_own (g : Nat → Nat → Nat) (bs : Bytes) (H : Heap) (b : buffer)
    (hv : b.Valid H) (n : Nat) (hn : n ≤ b.len) :
    ((goAppend g bs (H, b)).1.getD b.arr []).take n = (H.getD b.arr []).take n := by
  unfold goAppend
  by_cases hfit : b.len + bs.length ≤ b.cap
  · simp only [hfit, if_true]
    by_cases hi : b.arr < H.length
    · rw [getD_set_self H b.arr _ hi]
      exact writeAt_take_before _ _ _ _ (le_trans hv.1 hv.2) hn
    · rw [List.set_eq_of_length_le (Nat.le_of_not_lt hi)]
  · simp only [hfit, if_false]
    by_cases hi : b.arr < H.length
    · rw [getD_append_old H _ _ hi]
    · have h0 : H.getD b.arr [] = [] := getD_out_of_range H _ (Nat.le_of_not_lt hi)
      have hc : b.cap = 0 := by have := hv.2; rw [h0] at this; simpa using this
      have hl : b.len = 0 := by have := hv.1; omega
      have hn0 : n = 0 := by omega
      subst hn0
      simp

/-- An `append` to a slice that is full up to its capacity writes into no array that
exists: with nothing to append it changes nothing, otherwise it allocates. -/
theorem goAppend_clipped (g : Nat → Nat → Nat) (bs : Bytes) (H : Heap) (b : buffer)
    (hclip : b.cap = b.len) (i : Nat) (hi : i < H.length) :
    (goAppend g bs (H, b)).1.getD i [] = H.getD i [] := by
  unfold goAppend
  by_cases hfit : b.len + bs.length ≤ b.cap
  · have hbs : bs = [] := by
      apply List.eq_nil_of_length_eq_zero; omega
    subst hbs
    simp only [hfit, if_true, writeAt_nil]
    by_cases hb : i = b.arr
    · subst hb; exact getD_set_self H _ _ hi
    · exact getD_set_other H b.arr i _ hb
  · simp only [hfit, if_false]
    exact getD_append_old H _ i hi

/-! ## A run of appends to one slice -/

theorem Owned.start (H0 : Heap) (P : Nat → Prop) (b : buffer) (hv : b.Valid H0)
    (ha : b.cap = b.len ∨ ¬ P b.arr) : Owned H0 b P (H0, b) :=
  ⟨hv, le_refl _, fun _ => le_refl _, fun _ _ _ => rfl,
    ha.elim Or.inl (fun h => Or.inr (Or.inr h)), Or.inl ⟨rfl, rfl⟩⟩

/-- No array shrinks under `append`. -/
theorem goAppend_mono (g : Nat → Nat → Nat) (bs : Bytes) (H : Heap) (b : buffer)
    (hv : b.Valid H) (i : Nat) :
    (H.getD i []).length ≤ ((goAppend g bs (H, b)).1.getD i []).length := by
  unfold goAppend
  by_cases hfit : b.len + bs.length ≤ b.cap
  · simp only [hfit, if_true]
    by_cases hb : i = b.arr
    · subst hb
      by_cases hi : b.arr < H.length
      · rw [getD_set_self H _ _ hi, writeAt_length _ _ _ (le_trans hfit hv.2)]
      · rw [List.set_eq_of_length_le (Nat.le_of_not_lt hi)]
    · rw [getD_set_other H b.arr i _ hb]
  · simp only [hfit, if_false]
    by_cases hi : i < H.length
    · rw [getD_append_old H _ i hi]
    · rw [getD_out_of_range H i (Nat.le_of_not_lt hi)]
      simp

theorem Owned.append {H0 : Heap} {b0 : buffer} {P : Nat → Prop} {s : St}
    (g : Nat → Nat → Nat) (bs : Bytes) (ho : Owned H0 b0 P s) :
    Owned H0 b0 P (goAppend g bs s) := by
  obtain ⟨H, b⟩ := s
  have hlen := goAppend_length g bs H b
  have harr := goAppend_arr g bs H b
  refine ⟨goAppend_valid g bs H b ho.valid, le_trans ho.grows hlen,
    fun i => le_trans (ho.mono i) (goAppend_mono g bs H b ho.valid i), ?_, ?_, ?_⟩
  · intro i hi hP
    have hi1 : i < H.length := lt_of_lt_of_le hi ho.grows
    rw [← ho.frame i hi hP]
    rcases ho.away with hc | hf | hn
    · exact goAppend_clipped g bs H b hc i hi1
    · exact goAppend_frame g bs H b i hi1 (by simp only at hf; omega)
    · exact goAppend_frame g bs H b i hi1 (fun h => hn (h ▸ hP))
  · rcases harr with ⟨ha, hc, hfit⟩ | hnew
    · rcases ho.away with hcl | hf | hn
      · left
        have hl : (goAppend g bs (H, b)).2.len = b.len + bs.length := by
          unfold goAppend; simp [hfit]
        simp only at hcl
        rw [hc, hl]; omega
      · right; left; rw [ha]; exact hf
      · right; right; rw [ha]; exact hn
    · right; left; rw [hnew]; exact ho.grows
  · rcases harr with ⟨ha, hc, _⟩ | hnew
    · rcases ho.origin with ⟨h1, h2⟩ | hf
      · left; exact ⟨ha.trans h1, hc.trans h2⟩
      · right; rw [ha]; exact hf
    · right; rw [hnew]; exact ho.grows

theorem Owned.append_bytes {H0 : Heap} {b0 : buffer} {P : Nat → Prop} {s : St}
    (g : Nat → Nat → Nat) (bs : Bytes) (ho : Owned H0 b0 P s) :
    (goAppend g bs s).2.bytes (goAppend g bs s).1 = s.2.bytes s.1 ++ bs := by
  obtain ⟨H, b⟩ := s
  exact goAppend_bytes g bs H b ho.valid

/-- A slice of the starting heap whose array is in `P` still reads the same bytes. -/
theorem Owned.bytes_kept {H0 : Heap} {b0 : buffer} {P : Nat → Prop} {s : St}
    (ho : Owned H0 b0 P s)
    (c : buffer) (hv : c.Valid H0) (hP : c.cap = 0 ∨ P c.arr) :
    c.bytes s.1 = c.bytes H0 := by
  unfold buffer.bytes
  by_cases hc : 0 < c.cap
  · have hi := arr_lt_of_room H0 c hv hc
    rcases hP with h0 | hP
    · omega
    · rw [ho.frame c.arr hi hP]
  · have hl : c.len = 0 := by have := hv.1; omega
    simp [hl]

/-- A slice that was well formed in the starting heap still is. -/
theorem Owned.valid_kept {H0 : Heap} {b0 : buffer} {P : Nat → Prop} {s : St}
    (ho : Owned H0 b0 P s) (c : buffer) (hv : c.Valid H0) : c.Valid s.1 :=
  ⟨hv.1, le_trans hv.2 (ho.mono c.arr)⟩

theorem attrsBytes_nil (E : Env) (group : String) : attrsBytes E group [] = [] := rfl

theorem attrsBytes_cons (E : Env) (group : String) (a : Attr) (as : List Attr) :
    attrsBytes E group (a :: as) = E.attr a group ++ attrsBytes E group as := by
  simp [attrsBytes]

theorem attrsBytes_append (E : Env) (group : String) (as bs : List Attr) :
    attrsBytes E group (as ++ bs) = attrsBytes E group as ++ attrsBytes E group bs := by
  simp [attrsBytes]

/-- The attribute loop keeps the run's invariant and appends the attributes' rendering. -/
theorem writeAttrs_owned {H0 : Heap} {b0 : buffer} {P : Nat → Prop} (E : Env)
    (group : String) (attrs : List Attr) (s : St) (ho : Owned H0 b0 P s) :
    Owned H0 b0 P (writeAttrs E group attrs s) ∧
      (writeAttrs E group attrs s).2.bytes (writeAttrs E group attrs s).1 =
        s.2.bytes s.1 ++ attrsBytes E group attrs := by
  induction attrs generalizing s with
  | nil => simp [writeAttrs, attrsBytes, ho]
  | cons a as ih =>
    have h1 : Owned H0 b0 P (buffer.writeAttr E a group s) := ho.append E.grow _
    have h2 := ih (buffer.writeAttr E a group s) h1
    have hb : (buffer.writeAttr E a group s).2.bytes (buffer.writeAttr E a group s).1 =
        s.2.bytes s.1 ++ E.attr a group := ho.append_bytes E.grow _
    have hw : writeAttrs E group (a :: as) s =
        writeAttrs E group as (buffer.writeAttr E a group s) := rfl
    rw [hw, attrsBytes_cons]
    refine ⟨h2.1, ?_⟩
    rw [h2.2, hb, List.append_assoc]

/-! ## One call of `Handle` -/

theorem Reset_Reset (b : buffer) : b.Reset.Reset = b.Reset := rfl

theorem bytes_of_len_zero (H : Heap) (b : buffer) (h : b.len = 0) : b.bytes H = [] := by
  simp [buffer.bytes, h]

/-- The source step of `Handle` appends the source field. -/
theorem source_step {H0 : Heap} {b0 : buffer} {P : Nat → Prop} (E : Env)
    (opts : HandlerOptions) (rec : Record) (s t : St) (ho : Owned H0 b0 P s)
    (ht : t = if opts.AddSource && decide (rec.PC > 0)
        then buffer.writeSource E rec.PC E.cwd s else s) :
    Owned H0 b0 P t ∧ t.2.bytes t.1 = s.2.bytes s.1 ++ sourceBytes E opts rec := by
  unfold sourceBytes
  by_cases hc : opts.AddSource = true ∧ rec.PC ≠ 0
  · have hb : (opts.AddSource && decide (rec.PC > 0)) = true := by
      simp [hc.1, Nat.pos_of_ne_zero hc.2]
    rw [if_pos hb] at ht
    rw [if_pos hc, ht]
    exact ⟨ho.append E.grow _, ho.append_bytes E.grow _⟩
  · have hb : ¬ (opts.AddSource && decide (rec.PC > 0)) = true := by
      intro hb
      simp only [Bool.and_eq_true, decide_eq_true_eq] at hb
      exact hc ⟨hb.1, Nat.pos_iff_ne_zero.mp hb.2⟩
    rw [if_neg hb] at ht
    rw [if_neg hc, ht]
    exact ⟨ho, by simp⟩

/-- What one call of `Handle` does, for a handler whose options struct and writer are
there and a pool buffer that is empty and cannot write into the arrays of `P`, among
them the one of the handler's context: the writer receives one `Write` call whose
payload is the line of the record, the error of that call is returned, the buffer
goes back to the pool emptied, and the arrays of `P` are left alone. -/
theorem Handle_run (E : Env) (h : ConsoleHandler) (rec : Record) (pick : Option Nat)
    (w : World) (P : Nat → Prop) (p : Nat) (opts : HandlerOptions) (out : Writer)
    (hptr : h.opts = some p) (hopts : w.options.get? p = some opts)
    (hout : w.sinks.get? h.out = some out)
    (hbv : (bufferPool.Get w.pool pick).1.Valid w.heap)
    (hbe : (bufferPool.Get w.pool pick).1.len = 0)
    (hba : (bufferPool.Get w.pool pick).1.cap = 0 ∨ ¬ P (bufferPool.Get w.pool pick).1.arr)
    (hcv : h.context.Valid w.heap) (hcP : h.context.cap = 0 ∨ P h.context.arr) :
    ∃ s : St, Owned w.heap (bufferPool.Get w.pool pick).1 P s ∧
      s.2.bytes s.1 = lineBytes E opts h.group (h.context.bytes w.heap) rec ∧
      h.Handle E rec pick w =
        some ({ w with
                heap := s.1
                pool := (bufferPool.Get w.pool pick).2 ++ [s.2.Reset]
                sinks := w.sinks.set h.out
                  (out.Write (lineBytes E opts h.group (h.context.bytes w.heap) rec)).1 },
              (out.Write (lineBytes E opts h.group (h.context.bytes w.heap) rec)).2.2) := by
  unfold ConsoleHandler.Handle
  simp only [hptr, hopts, hout, buffer.writeTimestamp, buffer.writeLevel, buffer.writeMessage,
    buffer.copy, buffer.NewLine, bufferPool.Put]
  generalize hg : bufferPool.Get w.pool pick = got at hbv hbe hba ⊢
  have h0 : Owned w.heap got.1 P (w.heap, got.1) :=
    Owned.start w.heap P _ hbv (by
      rcases hba with hc | hn
      · left; rw [hc, hbe]
      · right; exact hn)
  have hb0 : got.1.bytes w.heap = [] := bytes_of_len_zero _ _ hbe
  -- the writes, one after the other
  have h1 := h0.append E.grow (E.timestamp rec.Time)
  have hb1 := h0.append_bytes E.grow (E.timestamp rec.Time)
  simp only [hb0, List.nil_append] at hb1
  generalize goAppend E.grow (E.timestamp rec.Time) (w.heap, got.1) = s1 at h1 hb1 ⊢
  have h2 := h1.append E.grow (E.level rec.Level)
  have hb2 := h1.append_bytes E.grow (E.level rec.Level)
  rw [hb1] at hb2
  generalize goAppend E.grow (E.level rec.Level) s1 = s2 at h2 hb2 ⊢
  have h3 := source_step E opts rec s2 _ h2 rfl
  rw [hb2] at h3
  generalize (if opts.AddSource && decide (rec.PC > 0)
    then buffer.writeSource E rec.PC E.cwd s2 else s2) = s3 at h3 ⊢
  have h4 := h3.1.append E.grow (E.message rec.Message)
  have hb4 := h3.1.append_bytes E.grow (E.message rec.Message)
  rw [h3.2] at hb4
  generalize goAppend E.grow (E.message rec.Message) s3 = s4 at h4 hb4 ⊢
  have hk := h4.bytes_kept h.context hcv hcP
  have h5 := h4.append E.grow (h.context.bytes s4.1)
  have hb5 := h4.append_bytes E.grow (h.context.bytes s4.1)
  rw [hb4, hk] at hb5
  rw [hk] at h5
  rw [hk]
  generalize goAppend E.grow (h.context.bytes w.heap) s4 = s5 at h5 hb5 ⊢
  have h6 := writeAttrs_owned E h.group rec.attrs s5 h5
  rw [hb5] at h6
  generalize writeAttrs E h.group rec.attrs s5 = s6 at h6 ⊢
  have h7 := h6.1.append E.grow E.newline
  have hb7 := h6.1.append_bytes E.grow E.newline
  rw [h6.2] at hb7
  generalize goAppend E.grow E.newline s6 = s7 at h7 hb7 ⊢
  have hline : s7.2.bytes s7.1 = lineBytes E opts h.group (h.context.bytes w.heap) rec := by
    rw [hb7]; simp [lineBytes]
  refine ⟨s7, h7, hline, ?_⟩
  simp only [buffer.WriteTo, hline]
  rcases hw : out.Write (lineBytes E opts h.group (h.context.bytes w.heap) rec) with
    ⟨out1, n, err⟩
  cases err with
  | none => simp
  | some e => simp [Reset_Reset]

/-! ## One call of `WithAttrs` -/

theorem bytes_Clip (H : Heap) (b : buffer) : b.Clip.bytes H = b.bytes H := rfl

/-- What one call of `WithAttrs` does on a handler whose context is well formed and full
up to its capacity: no array that existed is written, the new context reads the old
context's bytes followed by the rendering of the attributes, and it is again full up
to its capacity. -/
theorem WithAttrs_run (E : Env) (h : ConsoleHandler) (attrs : List Attr) (H : Heap)
    (hv : h.context.Valid H) (hclip : h.context.cap = h.context.len) :
    Owned H h.context (fun _ => True) (writeAttrs E h.group attrs (H, h.context)) ∧
      (h.WithAttrs E attrs H).1.context.bytes (h.WithAttrs E attrs H).2 =
        h.context.bytes H ++ attrsBytes E h.group attrs ∧
      (h.WithAttrs E attrs H).1.context.Valid (h.WithAttrs E attrs H).2 ∧
      (h.WithAttrs E attrs H).1.context.cap = (h.WithAttrs E attrs H).1.context.len := by
  have h0 : Owned H h.context (fun _ => True) (H, h.context) :=
    Owned.start H _ _ hv (Or.inl hclip)
  have h1 := writeAttrs_owned E h.group attrs _ h0
  refine ⟨h1.1, ?_, ?_, rfl⟩
  · simp only [ConsoleHandler.WithAttrs, bytes_Clip]
    exact h1.2
  · simp only [ConsoleHandler.WithAttrs]
    exact ⟨le_refl _, le_trans h1.1.valid.1 h1.1.valid.2⟩

/-! ## `NewHandler` and the options struct -/

theorem NewHandler_handler (out : Nat) (opts : Option Nat) (w : World) :
    (NewHandler out opts w).1 =
      { opts := some (opts.getD w.options.length), out := out, group := "",
        context := { arr := 0, len := 0, cap := 0 } } := by
  cases opts <;> rfl

theorem NewHandler_world (out : Nat) (opts : Option Nat) (w : World) :
    (NewHandler out opts w).2 = { w with options := (NewHandler out opts w).2.options } := rfl

/-- The struct behind the pointer `NewHandler` stores, as `NewHandler` leaves it: it is
there and its `Level` is not `nil`; it is the level the caller gave, or `LevelInfo`. -/
theorem NewHandler_struct (out : Nat) (opts : Option Nat) (w : World)
    (hp : ∀ p, opts = some p → p < w.options.length) :
    ∃ o lv, (NewHandler out opts w).2.options.get? (opts.getD w.options.length) = some o ∧
      o.Level = some lv ∧
      ∀ w1 : World, lv.level w1.levelVars = configuredMinimum opts w w1 := by
  cases opts with
  | none =>
    refine ⟨{ AddSource := false, Level := some (Leveler.ofLevel LevelInfo) },
      Leveler.ofLevel LevelInfo, ?_, rfl, fun _ => rfl⟩
    simp [NewHandler]
  | some p =>
    have hlt := hp p rfl
    have hget : w.options.get? p = some (w.options.get ⟨p, hlt⟩) := List.get?_eq_get hlt
    cases hl : (w.options.get ⟨p, hlt⟩).Level with
    | none =>
      refine ⟨{ w.options.get ⟨p, hlt⟩ with Level := some (Leveler.ofLevel LevelInfo) },
        Leveler.ofLevel LevelInfo, ?_, rfl, ?_⟩
      · simp only [NewHandler, hget, hl, Option.getD_some]
        simp [List.getElem?_set_self hlt]
      · intro w1
        simp only [configuredMinimum, hget, hl]
        rfl
    | some lv =>
      refine ⟨w.options.get ⟨p, hlt⟩, lv, ?_, hl, ?_⟩
      · simp only [NewHandler, hget, hl, Option.getD_some]
      · intro w1
        simp only [configuredMinimum, hget, hl]

/-- `NewHandler` removes no options struct, and the pointer it stores is to a struct
that exists. -/
theorem NewHandler_options_length (out : Nat) (opts : Option Nat) (w : World)
    (hp : ∀ p, opts = some p → p < w.options.length) :
    w.options.length ≤ (NewHandler out opts w).2.options.length ∧
      opts.getD w.options.length < (NewHandler out opts w).2.options.length := by
  cases opts with
  | none =>
    simp only [NewHandler, Option.getD_none]
    simp
  | some p =>
    have hlt := hp p rfl
    have hget : w.options.get? p = some (w.options.get ⟨p, hlt⟩) := List.get?_eq_get hlt
    cases hl : (w.options.get ⟨p, hlt⟩).Level with
    | none =>
      simp only [NewHandler, hget, hl, Option.getD_some, List.length_set]
      exact ⟨le_refl _, hlt⟩
    | some lv =>
      simp only [NewHandler, hget, hl, Option.getD_some]
      exact ⟨le_refl _, hlt⟩

/-! ## The invariant holds in every reachable state -/

theorem Get_fst (pool : List buffer) (pick : Option Nat) :
    (bufferPool.Get pool pick).1 = bufferPool.New ∨ (bufferPool.Get pool pick).1 ∈ pool := by
  unfold bufferPool.Get
  cases pick with
  | none => left; rfl
  | some i =>
    cases hg : pool.get? i with
    | none => left; simp only [hg]
    | some b => right; simp only [hg]; exact List.get?_mem hg

theorem Get_snd (pool : List buffer) (pick : Option Nat) (b : buffer)
    (hb : b ∈ (bufferPool.Get pool pick).2) : b ∈ pool := by
  unfold bufferPool.Get at hb
  cases pick with
  | none => exact hb
  | some i =>
    cases hg : pool.get? i with
    | none => simp only [hg] at hb; exact hb
    | some c => simp only [hg] at hb; exact List.mem_of_mem_eraseIdx hb

theorem ctxArray_lt (S : System) (hI : Inv S) (i : Nat) (hc : ctxArray S.handlers i) :
    i < S.world.heap.length := by
  obtain ⟨h, hm, ha, hcap⟩ := hc
  rw [← ha]
  exact arr_lt_of_room _ _ (hI.ctx h hm).1 hcap

theorem Inv_newHandler (S : System) (hI : Inv S) (out : Nat) (opts : Option Nat)
    (ho : out < S.world.sinks.length)
    (hp : ∀ p, opts = some p → p < S.world.options.length) :
    Inv ⟨(NewHandler out opts S.world).2, (NewHandler out opts S.world).1 :: S.handlers⟩ := by
  have hh := NewHandler_handler out opts S.world
  have hlen := NewHandler_options_length out opts S.world hp
  refine ⟨?_, ?_, ?_, hI.pool, ?_⟩
  · intro h hm
    rcases List.mem_cons.mp hm with rfl | hm
    · exact ⟨_, by rw [hh], hlen.2⟩
    · obtain ⟨p, h1, h2⟩ := hI.opts h hm
      exact ⟨p, h1, lt_of_lt_of_le h2 hlen.1⟩
  · intro h hm
    rcases List.mem_cons.mp hm with rfl | hm
    · rw [hh]; exact ho
    · exact hI.out h hm
  · intro h hm
    rcases List.mem_cons.mp hm with rfl | hm
    · rw [hh]; exact ⟨⟨le_refl _, Nat.zero_le _⟩, rfl⟩
    · exact hI.ctx h hm
  · intro b hb
    rcases hI.sep b hb with h0 | hn
    · exact Or.inl h0
    · right
      rintro ⟨h, hm, ha, hcap⟩
      rcases List.mem_cons.mp hm with rfl | hm
      · rw [hh] at hcap; exact Nat.lt_irrefl _ hcap
      · exact hn ⟨h, hm, ha, hcap⟩

theorem Inv_withGroup (S : System) (hI : Inv S) (h : ConsoleHandler) (name : String)
    (hm : h ∈ S.handlers) : Inv ⟨S.world, h.WithGroup name :: S.handlers⟩ := by
  refine ⟨?_, ?_, ?_, hI.pool, ?_⟩
  · intro k hk
    rcases List.mem_cons.mp hk with rfl | hk
    · exact hI.opts h hm
    · exact hI.opts k hk
  · intro k hk
    rcases List.mem_cons.mp hk with rfl | hk
    · exact hI.out h hm
    · exact hI.out k hk
  · intro k hk
    rcases List.mem_cons.mp hk with rfl | hk
    · exact hI.ctx h hm
    · exact hI.ctx k hk
  · intro b hb
    rcases hI.sep b hb with h0 | hn
    · exact Or.inl h0
    · right
      rintro ⟨k, hk, ha, hcap⟩
      rcases List.mem_cons.mp hk with rfl | hk
      · exact hn ⟨h, hm, ha, hcap⟩
      · exact hn ⟨k, hk, ha, hcap⟩

theorem Inv_withAttrs (E : Env) (S : System) (hI : Inv S) (h : ConsoleHandler)
    (attrs : List Attr) (hm : h ∈ S.handlers) :
    Inv ⟨{ S.world with heap := (h.WithAttrs E attrs S.world.heap).2 },
      (h.WithAttrs E attrs S.world.heap).1 :: S.handlers⟩ := by
  obtain ⟨hown, _, hval, hcl⟩ :=
    WithAttrs_run E h attrs S.world.heap (hI.ctx h hm).1 (hI.ctx h hm).2
  refine ⟨?_, ?_, ?_, ?_, ?_⟩
  · intro k hk
    rcases List.mem_cons.mp hk with rfl | hk
    · exact hI.opts h hm
    · exact hI.opts k hk
  · intro k hk
    rcases List.mem_cons.mp hk with rfl | hk
    · exact hI.out h hm
    · exact hI.out k hk
  · intro k hk
    rcases List.mem_cons.mp hk with rfl | hk
    · exact ⟨hval, hcl⟩
    · exact ⟨hown.valid_kept k.context (hI.ctx k hk).1, (hI.ctx k hk).2⟩
  · intro b hb
    exact ⟨hown.valid_kept b (hI.pool b hb).1, (hI.pool b hb).2⟩
  · intro b hb
    by_cases hb0 : b.cap = 0
    · exact Or.inl hb0
    right
    have hold : ¬ ctxArray S.handlers b.arr := (hI.sep b hb).resolve_left hb0
    have hblt : b.arr < S.world.heap.length :=
      arr_lt_of_room _ _ (hI.pool b hb).1 (Nat.pos_of_ne_zero hb0)
    rintro ⟨k, hk, ha, hcap⟩
    rcases List.mem_cons.mp hk with rfl | hk
    · simp only [ConsoleHandler.WithAttrs, buffer.Clip] at ha hcap
      rcases hown.origin with ⟨h1, h2⟩ | hf
      · apply hold
        refine ⟨h, hm, h1.symm.trans ha, ?_⟩
        rw [← h2]
        exact lt_of_lt_of_le hcap hown.valid.1
      · omega
    · exact hold ⟨k, hk, ha, hcap⟩

/-- A call of `Handle` in a state where the invariant holds returns, and this is what
it returns and the invariant it leaves. -/
theorem Handle_inv (E : Env) (S : System) (hI : Inv S) (h : ConsoleHandler)
    (hm : h ∈ S.handlers) (rec : Record) (pick : Option Nat) :
    ∃ p opts out w1,
      h.opts = some p ∧ S.world.options.get? p = some opts ∧
      S.world.sinks.get? h.out = some out ∧
      h.Handle E rec pick S.world = some (w1,
        (out.Write (lineBytes E opts h.group (h.context.bytes S.world.heap) rec)).2.2) ∧
      w1.sinks = S.world.sinks.set h.out
        (out.Write (lineBytes E opts h.group (h.context.bytes S.world.heap) rec)).1 ∧
      w1.levelVars = S.world.levelVars ∧ w1.options = S.world.options ∧
      (∃ b : buffer, b.bytes w1.heap =
          lineBytes E opts h.group (h.context.bytes S.world.heap) rec ∧
        w1.pool = (bufferPool.Get S.world.pool pick).2 ++ [b.Reset]) ∧
      (∀ b ∈ w1.pool, b.len = 0) ∧
      (∀ k ∈ S.handlers, k.context.bytes w1.heap = k.context.bytes S.world.heap) ∧
      Inv ⟨w1, S.handlers⟩ := by
  obtain ⟨p, hptr, hplt⟩ := hI.opts h hm
  have hopts : S.world.options.get? p = some (S.world.options.get ⟨p, hplt⟩) :=
    List.get?_eq_get hplt
  have hlt := hI.out h hm
  have hout : S.world.sinks.get? h.out = some (S.world.sinks.get ⟨h.out, hlt⟩) :=
    List.get?_eq_get hlt
  have hgot := Get_fst S.world.pool pick
  have hbv : (bufferPool.Get S.world.pool pick).1.Valid S.world.heap := by
    rcases hgot with hn | hp
    · rw [hn]; exact ⟨le_refl _, Nat.zero_le _⟩
    · exact (hI.pool _ hp).1
  have hbe : (bufferPool.Get S.world.pool pick).1.len = 0 := by
    rcases hgot with hn | hp
    · rw [hn]; rfl
    · exact (hI.pool _ hp).2
  have hba : (bufferPool.Get S.world.pool pick).1.cap = 0 ∨
      ¬ ctxArray S.handlers (bufferPool.Get S.world.pool pick).1.arr := by
    rcases hgot with hn | hp
    · left; rw [hn]; rfl
    · exact hI.sep _ hp
  have hcP : ∀ k ∈ S.handlers, k.context.cap = 0 ∨ ctxArray S.handlers k.context.arr := by
    intro k hk
    by_cases hc : k.context.cap = 0
    · exact Or.inl hc
    · exact Or.inr ⟨k, hk, rfl, Nat.pos_of_ne_zero hc⟩
  obtain ⟨s, hown, hline, hrun⟩ := Handle_run E h rec pick S.world (ctxArray S.handlers) p _ _
    hptr hopts hout hbv hbe hba (hI.ctx h hm).1 (hcP h hm)
  refine ⟨p, _, _, _, hptr, hopts, hout, hrun, rfl, rfl, rfl, ⟨s.2, hline, rfl⟩, ?_, ?_, ?_⟩
  · intro b hb
    rcases List.mem_append.mp hb with hb | hb
    · exact (hI.pool b (Get_snd _ _ b hb)).2
    · rw [List.mem_singleton.mp hb]; rfl
  · intro k hk
    exact hown.bytes_kept k.context (hI.ctx k hk).1 (hcP k hk)
  · refine ⟨hI.opts, ?_, ?_, ?_, ?_⟩
    · intro k hk
      simp only [List.length_set]
      exact hI.out k hk
    · intro k hk
      exact ⟨hown.valid_kept k.context (hI.ctx k hk).1, (hI.ctx k hk).2⟩
    · intro b hb
      rcases List.mem_append.mp hb with hb | hb
      · have := hI.pool b (Get_snd _ _ b hb)
        exact ⟨hown.valid_kept b this.1, this.2⟩
      · rw [List.mem_singleton.mp hb]
        exact ⟨⟨Nat.zero_le _, hown.valid.2⟩, rfl⟩
    · intro b hb
      rcases List.mem_append.mp hb with hb | hb
      · exact hI.sep b (Get_snd _ _ b hb)
      · rw [List.mem_singleton.mp hb]
        simp only [buffer.Reset]
        rcases hown.origin with ⟨h1, h2⟩ | hf
        · rw [h1, h2]; exact hba
        · right
          intro hc
          have := ctxArray_lt S hI _ hc
          omega

/-- The invariant holds in every reachable state. -/
theorem reachable_inv (E : Env) (S : System) (hr : Reachable E S) : Inv S := by
  induction hr with
  | init heap sinks levelVars options =>
    exact ⟨fun _ hm => absurd hm (List.not_mem_nil _), fun _ hm => absurd hm (List.not_mem_nil _),
      fun _ hm => absurd hm (List.not_mem_nil _), fun _ hm => absurd hm (List.not_mem_nil _),
      fun _ hm => absurd hm (List.not_mem_nil _)⟩
  | newHandler S out opts _ ho hp ih => exact Inv_newHandler S ih out opts ho hp
  | withAttrs S h attrs _ hm ih => exact Inv_withAttrs E S ih h attrs hm
  | withGroup S h name _ hm ih => exact Inv_withGroup S ih h name hm
  | handle S h rec pick w1 err _ hm hrun ih =>
    obtain ⟨p, opts, out, w2, _, _, _, hrun2, _, _, _, _, _, _, hinv⟩ :=
      Handle_inv E S ih h hm rec pick
    rw [hrun2] at hrun
    have hw : w2 = w1 := congrArg Prod.fst (Option.some.inj hrun)
    rw [← hw]
    exact hinv
  | setLevel S ref l _ ih => exact ⟨ih.opts, ih.out, ih.ctx, ih.pool, ih.sep⟩
  | poolDrop S i _ ih =>
    exact ⟨ih.opts, ih.out, ih.ctx,
      fun b hb => ih.pool b (List.mem_of_mem_eraseIdx hb),
      fun b hb => ih.sep b (List.mem_of_mem_eraseIdx hb)⟩
  | setOptions S p o _ ih =>
    refine ⟨?_, ih.out, ih.ctx, ih.pool, ih.sep⟩
    intro h hm
    obtain ⟨q, h1, h2⟩ := ih.opts h hm
    exact ⟨q, h1, by simp only [List.length_set]; exact h2⟩

/-! ## The level check -/

theorem Enabled_of_opts (h k : ConsoleHandler) (hk : h.opts = k.opts) (w : World) (l : Level) :
    h.Enabled w l = k.Enabled w l := by
  unfold ConsoleHandler.Enabled
  rw [hk]

theorem Derived_opts (E : Env) (h0 h : ConsoleHandler) (hd : Derived E h0 h) :
    h.opts = h0.opts := by
  induction hd with
  | self => rfl
  | withAttrs k attrs H _ ih => exact ih
  | withGroup k name _ ih => exact ih

/-- C2 as stated fails.  The program holds a `HandlerOptions` struct whose `Level` is
`nil` and passes its address to `NewHandler`: the minimum of the claim is `LevelInfo`
and `Enabled(LevelWarn)` is true.  The handler keeps the pointer: once the program
has written `LevelError` into its struct, `Enabled(LevelWarn)` is false, for the
handler and for a handler derived from it, and once it has written `nil` there,
`Enabled` does not return. -/
theorem Enabled_follows_options_struct :
    configuredMinimum (some 0) zeroOptsWorld zeroOptsWorld = LevelInfo ∧
      (NewHandler 0 (some 0) zeroOptsWorld).1.Enabled
          (NewHandler 0 (some 0) zeroOptsWorld).2 LevelWarn = some true ∧
      ¬ ((NewHandler 0 (some 0) zeroOptsWorld).1.Enabled
            { zeroOptsWorld with
              options := [{ AddSource := false, Level := some (.ofLevel LevelError) }] }
            LevelWarn = some true ↔
          LevelWarn ≥ configuredMinimum (some 0) zeroOptsWorld
            { zeroOptsWorld with
              options := [{ AddSource := false, Level := some (.ofLevel LevelError) }] }) ∧
      ((NewHandler 0 (some 0) zeroOptsWorld).1.WithGroup "g").Enabled
          { zeroOptsWorld with
            options := [{ AddSource := false, Level := some (.ofLevel LevelError) }] }
          LevelWarn = some false ∧
      (NewHandler 0 (some 0) zeroOptsWorld).1.Enabled
          { zeroOptsWorld with options := [{ AddSource := false, Level := none }] }
          LevelWarn = none := by
  decide

/-- C2 as amended: for a handler built by `NewHandler(out, opts)` and every handler
derived from it by `WithAttrs` and `WithGroup`, in every world in which the options
struct the handler points to is as `NewHandler` left it, `Enabled(l)` is true exactly
when `l` is at least the minimum: `opts.Level.Level()` when `opts` and `opts.Level`
were not `nil` at the call of `NewHandler`, `LevelInfo` otherwise; and in every world
whatever a derived handler answers the same as the handler it is derived from. -/
theorem Enabled_while_options_kept (E : Env) (out : Nat) (opts : Option Nat) (w0 : World)
    (hp : ∀ p, opts = some p → p < w0.options.length)
    (h : ConsoleHandler) (hd : Derived E (NewHandler out opts w0).1 h) (w : World)
    (hkept : ∀ p, (NewHandler out opts w0).1.opts = some p →
      w.options.get? p = (NewHandler out opts w0).2.options.get? p)
    (l : Level) :
    h.Enabled w l = some (decide (l ≥ configuredMinimum opts w0 w)) ∧
      (h.Enabled w l = some true ↔ l ≥ configuredMinimum opts w0 w) ∧
      (∀ (w1 : World) (l1 : Level),
        h.Enabled w1 l1 = (NewHandler out opts w0).1.Enabled w1 l1) := by
  have hsame : ∀ (w1 : World) (l1 : Level),
      h.Enabled w1 l1 = (NewHandler out opts w0).1.Enabled w1 l1 :=
    fun w1 l1 => Enabled_of_opts _ _ (Derived_opts E _ h hd) w1 l1
  have hh := NewHandler_handler out opts w0
  obtain ⟨o, lv, hget, hlv, hmin⟩ := NewHandler_struct out opts w0 hp
  have hk := hkept (opts.getD w0.options.length) (by rw [hh])
  have key : h.Enabled w l = some (decide (l ≥ configuredMinimum opts w0 w)) := by
    rw [hsame, hh]
    simp only [ConsoleHandler.Enabled, hk, hget, hlv, hmin]
  refine ⟨key, ?_, hsame⟩
  rw [key]
  simp

/-- The witness of C2 as amended: the address of a struct with a `nil` `Level` is passed
to `NewHandler`, a group is entered, and the level variables change. -/
theorem Enabled_while_options_kept_witness :
    (((NewHandler 0 (some 0) zeroOptsWorld).1.WithGroup "g").Enabled
        { (NewHandler 0 (some 0) zeroOptsWorld).2 with levelVars := [LevelError] } LevelInfo =
      some true) ∧
    (((NewHandler 0 (some 0) zeroOptsWorld).1.WithGroup "g").Enabled
        { (NewHandler 0 (some 0) zeroOptsWorld).2 with levelVars := [LevelError] } LevelInfo =
        some (decide (LevelInfo ≥ configuredMinimum (some 0) zeroOptsWorld
          { (NewHandler 0 (some 0) zeroOptsWorld).2 with levelVars := [LevelError] })) ∧
      (((NewHandler 0 (some 0) zeroOptsWorld).1.WithGroup "g").Enabled
          { (NewHandler 0 (some 0) zeroOptsWorld).2 with levelVars := [LevelError] } LevelInfo =
          some true ↔
        LevelInfo ≥ configuredMinimum (some 0) zeroOptsWorld
          { (NewHandler 0 (some 0) zeroOptsWorld).2 with levelVars := [LevelError] }) ∧
      (∀ (w1 : World) (l1 : Level),
        ((NewHandler 0 (some 0) zeroOptsWorld).1.WithGroup "g").Enabled w1 l1 =
          (NewHandler 0 (some 0) zeroOptsWorld).1.Enabled w1 l1)) :=
  ⟨by decide,
    Enabled_while_options_kept specEnv 0 (some 0) zeroOptsWorld
      (by intro p hp; cases hp; decide)
      _ (Derived.withGroup _ "g" Derived.self)
      { (NewHandler 0 (some 0) zeroOptsWorld).2 with levelVars := [LevelError] }
      (fun _ _ => rfl) LevelInfo⟩

/-! ## Groups -/

theorem append_ne_empty_right (x a : String) (ha : a ≠ "") : x ++ a ≠ "" := by
  intro h
  have hl : (x ++ a).length = 0 := by rw [h]; rfl
  rw [String.length_append] at hl
  have h0 : a.length = 0 := by omega
  apply ha
  cases a with
  | mk l =>
    have : l = [] := List.eq_nil_of_length_eq_zero h0
    rw [this]

/-- C7: for a non-empty group name `a` and any group name `b`, entering `a` and then `b`
gives the same handler as entering `a + "." + b` in one call: the same group
qualifier, the same context slice (hence the same context bytes in every heap), the
same options and the same sink; on a handler at the root that qualifier is
`a + "." + b`. -/
theorem WithGroup_WithGroup (h : ConsoleHandler) (a b : String) (ha : a ≠ "") :
    (h.WithGroup a).WithGroup b = h.WithGroup (a ++ "." ++ b) ∧
      (h.group = "" → ((h.WithGroup a).WithGroup b).group = a ++ "." ++ b) := by
  unfold ConsoleHandler.WithGroup
  by_cases hg : h.group = ""
  · simp [hg, ha]
  · have h1 : h.group ++ ("." ++ a) ≠ "" := by
      rw [← String.append_assoc]; exact append_ne_empty_right _ a ha
    simp [hg, h1, String.append_assoc]

/-- The witness of C7: the groups `a` and `b` entered on a handler already in group `g`. -/
theorem WithGroup_WithGroup_witness :
    (((((NewHandler 0 none demoWorld).1).WithGroup "g").WithGroup "a").WithGroup "b" =
        (((NewHandler 0 none demoWorld).1).WithGroup "g").WithGroup ("a" ++ "." ++ "b")) ∧
      ((((NewHandler 0 none demoWorld).1).WithGroup "g").group = "" →
        (((((NewHandler 0 none demoWorld).1).WithGroup "g").WithGroup "a").WithGroup "b").group =
          "a" ++ "." ++ "b") :=
  WithGroup_WithGroup (((NewHandler 0 none demoWorld).1).WithGroup "g") "a" "b" (by decide)

/-- C8, the code at the failing input: on a handler in group `g`, `WithGroup("")`
returns a handler in group `g.`, not in group `g`. -/
theorem WithGroup_empty_in_group :
    ((((NewHandler 0 none demoWorld).1).WithGroup "g").WithGroup "").group = "g." ∧
      ((((NewHandler 0 none demoWorld).1).WithGroup "g").WithGroup "").group ≠
        (((NewHandler 0 none demoWorld).1).WithGroup "g").group := by
  decide

/-! ## What `Handle` hands to the sink -/

theorem Write_fst (out : Writer) (p : Bytes) :
    (out.Write p).1 = { written := out.written ++ [p], outcomes := out.outcomes.tail } := by
  unfold Writer.Write
  cases out.outcomes <;> rfl

theorem WriteTo_err (H : Heap) (b : buffer) (out : Writer) :
    (buffer.WriteTo H b out).2.2.2 = (out.Write (b.bytes H)).2.2 := by
  unfold buffer.WriteTo
  rcases hw : out.Write (b.bytes H) with ⟨out1, n, err⟩
  cases err <;> rfl

theorem demoSystem_reachable (E : Env) : Reachable E demoSystem :=
  Reachable.newHandler ⟨demoWorld, []⟩ 0 (some 0)
    (Reachable.init [] [⟨[], []⟩] [] [demoOpts]) (by decide)
    (by intro p hp; cases hp; decide)

/-- C1: `Handle` on a handler of a reachable state returns, and the handler's sink has
received exactly one more `Write` call, no other sink any; the payload of that call is
the timestamp of `rec.Time`, the level tag of `rec.Level`, the source location (there
exactly when `AddSource` is set and `rec.PC` is not zero), the message, the bytes of
the handler's context as they are, the record's attributes in record order under the
handler's group, and the line terminator, in this order and with nothing after. -/
theorem Handle_hands_line (E : Env) (S : System) (hr : Reachable E S) (h : ConsoleHandler)
    (hm : h ∈ S.handlers) (rec : Record) (pick : Option Nat) :
    ∃ p opts out w1 err,
      h.opts = some p ∧ S.world.options.get? p = some opts ∧
      S.world.sinks.get? h.out = some out ∧
      h.Handle E rec pick S.world = some (w1, err) ∧
      w1.sinks = S.world.sinks.set h.out
        { written := out.written ++
            [E.timestamp rec.Time ++ E.level rec.Level ++
              (if opts.AddSource = true ∧ rec.PC ≠ 0 then E.source rec.PC E.cwd else []) ++
              E.message rec.Message ++ h.context.bytes S.world.heap ++
              attrsBytes E h.group rec.attrs ++ E.newline],
          outcomes := out.outcomes.tail } := by
  obtain ⟨p, opts, out, w1, hptr, hopts, hout, hrun, hsinks, _⟩ :=
    Handle_inv E S (reachable_inv E S hr) h hm rec pick
  refine ⟨p, opts, out, w1, _, hptr, hopts, hout, hrun, ?_⟩
  rw [hsinks, Write_fst]
  rfl

/-- The witness of C1: the first line of the example program. -/
theorem Handle_hands_line_witness :
    ((demoRoot.Handle specEnv demoRecord none demoWorld).map (fun r => (r.1.sinks, r.2)) =
        some ([⟨[bytesOf "0 INF pc7 \"Hello world!\" foo=bar\n"], []⟩], none)) ∧
      ∃ p opts out w1 err,
        demoRoot.opts = some p ∧ demoSystem.world.options.get? p = some opts ∧
        demoSystem.world.sinks.get? demoRoot.out = some out ∧
        demoRoot.Handle specEnv demoRecord none demoSystem.world = some (w1, err) ∧
        w1.sinks = demoSystem.world.sinks.set demoRoot.out
          { written := out.written ++
              [specEnv.timestamp demoRecord.Time ++ specEnv.level demoRecord.Level ++
                (if opts.AddSource = true ∧ demoRecord.PC ≠ 0
                  then specEnv.source demoRecord.PC specEnv.cwd else []) ++
                specEnv.message demoRecord.Message ++
                demoRoot.context.bytes demoSystem.world.heap ++
                attrsBytes specEnv demoRoot.group demoRecord.attrs ++ specEnv.newline],
            outcomes := out.outcomes.tail } :=
  ⟨by decide,
    Handle_hands_line specEnv demoSystem (demoSystem_reachable specEnv) demoRoot
      (List.mem_cons_self _ _) demoRecord none⟩

/-- C3, the code at the failing input: the handler of `NewHandler(out, nil)` has minimum
`LevelInfo` and answers `Enabled(LevelDebug)` with false, and `Handle` with a
`LevelDebug` record still writes the record's line to the sink and returns `nil`. -/
theorem Handle_below_minimum_writes :
    (NewHandler 0 none demoWorld).1.Enabled (NewHandler 0 none demoWorld).2
        debugRecord.Level = some false ∧
      ((NewHandler 0 none demoWorld).1.Handle specEnv debugRecord none
          (NewHandler 0 none demoWorld).2).map (fun r => (r.1.sinks, r.2)) =
        some ([⟨[bytesOf "0 DBG \"Debug message\"\n"], []⟩], none) := by
  decide

/-- C4: `Handle` on a handler of a reachable state returns (no step of it panics or
fails), and the error it returns is the error of its one `WriteTo` call, made on a
buffer that holds the record's line: `nil` exactly when that call returns no error,
and otherwise that error itself. -/
theorem Handle_error_is_WriteTo_error (E : Env) (S : System) (hr : Reachable E S)
    (h : ConsoleHandler) (hm : h ∈ S.handlers) (rec : Record) (pick : Option Nat) :
    ∃ p opts out w1 err b,
      h.opts = some p ∧ S.world.options.get? p = some opts ∧
      S.world.sinks.get? h.out = some out ∧
      h.Handle E rec pick S.world = some (w1, err) ∧
      b.bytes w1.heap = lineBytes E opts h.group (h.context.bytes S.world.heap) rec ∧
      err = (buffer.WriteTo w1.heap b out).2.2.2 ∧
      (err = none ↔ (buffer.WriteTo w1.heap b out).2.2.2 = none) ∧
      (∀ e, (buffer.WriteTo w1.heap b out).2.2.2 = some e → err = some e) := by
  obtain ⟨p, opts, out, w1, hptr, hopts, hout, hrun, _, _, _, ⟨b, hb, _⟩, _⟩ :=
    Handle_inv E S (reachable_inv E S hr) h hm rec pick
  have herr : (out.Write (lineBytes E opts h.group (h.context.bytes S.world.heap) rec)).2.2 =
      (buffer.WriteTo w1.heap b out).2.2.2 := by
    rw [WriteTo_err, hb]
  refine ⟨p, opts, out, w1, _, b, hptr, hopts, hout, hrun, hb, herr, ?_, ?_⟩
  · rw [herr]
  · intro e he
    rw [herr, he]

/-- The witness of C4: the example handler on a writer whose `Write` fails; `Handle`
returns that error. -/
theorem Handle_error_is_WriteTo_error_witness :
    ((demoRoot.Handle specEnv demoRecord none { demoWorld with sinks := [failingWriter] }).map
        (fun r => r.2) = some (some "disk full")) ∧
      ∃ p opts out w1 err b,
        demoRoot.opts = some p ∧
        ({ demoWorld with sinks := [failingWriter] } : World).options.get? p = some opts ∧
        ({ demoWorld with sinks := [failingWriter] } : World).sinks.get? demoRoot.out =
          some out ∧
        demoRoot.Handle specEnv demoRecord none { demoWorld with sinks := [failingWriter] } =
          some (w1, err) ∧
        b.bytes w1.heap = lineBytes specEnv opts demoRoot.group
          (demoRoot.context.bytes ({ demoWorld with sinks := [failingWriter] } : World).heap)
          demoRecord ∧
        err = (buffer.WriteTo w1.heap b out).2.2.2 ∧
        (err = none ↔ (buffer.WriteTo w1.heap b out).2.2.2 = none) ∧
        (∀ e, (buffer.WriteTo w1.heap b out).2.2.2 = some e → err = some e) :=
  ⟨by decide,
    Handle_error_is_WriteTo_error specEnv
      ⟨{ demoWorld with sinks := [failingWriter] }, [demoRoot]⟩
      (Reachable.newHandler ⟨{ demoWorld with sinks := [failingWriter] }, []⟩ 0 (some 0)
        (Reachable.init [] [failingWriter] [] [demoOpts]) (by decide)
        (by intro p hp; cases hp; decide))
      demoRoot (List.mem_cons_self _ _) demoRecord none⟩

/-! ## Binding attributes -/

/-- C5: `WithAttrs` on a handler of a reachable state returns a handler whose context
reads the bytes of the old context followed by the rendering of each attribute, in
list order, under the old handler's group, and whose options, sink and group are the
old handler's; with no attributes the context reads the same bytes as before. -/
theorem WithAttrs_context (E : Env) (S : System) (hr : Reachable E S) (h : ConsoleHandler)
    (hm : h ∈ S.handlers) (attrs : List Attr) :
    (h.WithAttrs E attrs S.world.heap).1.context.bytes (h.WithAttrs E attrs S.world.heap).2 =
        h.context.bytes S.world.heap ++ attrs.flatMap (fun a => E.attr a h.group) ∧
      (h.WithAttrs E attrs S.world.heap).1.opts = h.opts ∧
      (h.WithAttrs E attrs S.world.heap).1.out = h.out ∧
      (h.WithAttrs E attrs S.world.heap).1.group = h.group ∧
      (h.WithAttrs E [] S.world.heap).1.context.bytes (h.WithAttrs E [] S.world.heap).2 =
        h.context.bytes S.world.heap := by
  have hI := reachable_inv E S hr
  have h1 := (WithAttrs_run E h attrs S.world.heap (hI.ctx h hm).1 (hI.ctx h hm).2).2.1
  have h2 := (WithAttrs_run E h [] S.world.heap (hI.ctx h hm).1 (hI.ctx h hm).2).2.1
  rw [attrsBytes_nil, List.append_nil] at h2
  exact ⟨h1, rfl, rfl, rfl, h2⟩

/-- The witness of C5: `With("foo", "bar")` on the example handler. -/
theorem WithAttrs_context_witness :
    ((demoRoot.WithAttrs specEnv [Attr.ofString "foo" "bar"] demoWorld.heap).1.context.bytes
        (demoRoot.WithAttrs specEnv [Attr.ofString "foo" "bar"] demoWorld.heap).2 =
      bytesOf " foo=bar") ∧
    ((demoRoot.WithAttrs specEnv [Attr.ofString "foo" "bar"]
          demoSystem.world.heap).1.context.bytes
        (demoRoot.WithAttrs specEnv [Attr.ofString "foo" "bar"] demoSystem.world.heap).2 =
        demoRoot.context.bytes demoSystem.world.heap ++
          [Attr.ofString "foo" "bar"].flatMap (fun a => specEnv.attr a demoRoot.group) ∧
      (demoRoot.WithAttrs specEnv [Attr.ofString "foo" "bar"] demoSystem.world.heap).1.opts =
        demoRoot.opts ∧
      (demoRoot.WithAttrs specEnv [Attr.ofString "foo" "bar"] demoSystem.world.heap).1.out =
        demoRoot.out ∧
      (demoRoot.WithAttrs specEnv [Attr.ofString "foo" "bar"] demoSystem.world.heap).1.group =
        demoRoot.group ∧
      (demoRoot.WithAttrs specEnv [] demoSystem.world.heap).1.context.bytes
          (demoRoot.WithAttrs specEnv [] demoSystem.world.heap).2 =
        demoRoot.context.bytes demoSystem.world.heap) :=
  ⟨by decide,
    WithAttrs_context specEnv demoSystem (demoSystem_reachable specEnv) demoRoot
      (List.mem_cons_self _ _) [Attr.ofString "foo" "bar"]⟩

theorem WithGroup_root (h : ConsoleHandler) (hg : h.group = "") (g : String) :
    (h.WithGroup g).group = g := by
  simp [ConsoleHandler.WithGroup, hg]

/-- The scenario of C6 from any handler of a reachable state that is at the root and
has an empty context. -/
theorem Handle_after_groups_from (E : Env) (S : System) (hr : Reachable E S)
    (h0 : ConsoleHandler) (hm : h0 ∈ S.handlers) (hg : h0.group = "")
    (hc : h0.context.bytes S.world.heap = []) (g : String)
    (xs ys : List Attr) (rec : Record) (pick : Option Nat) :
    ∃ p o sink w1 err,
      h0.opts = some p ∧ S.world.options.get? p = some o ∧
      S.world.sinks.get? h0.out = some sink ∧
      (((h0.WithAttrs E xs S.world.heap).1.WithGroup g).WithAttrs E ys
          (h0.WithAttrs E xs S.world.heap).2).1.Handle E rec pick
        { S.world with
          heap := (((h0.WithAttrs E xs S.world.heap).1.WithGroup g).WithAttrs E ys
            (h0.WithAttrs E xs S.world.heap).2).2 } =
        some (w1, err) ∧
      w1.sinks = S.world.sinks.set h0.out
        { written := sink.written ++
            [E.timestamp rec.Time ++ E.level rec.Level ++ sourceBytes E o rec ++
              E.message rec.Message ++
              (attrsBytes E "" xs ++ attrsBytes E g ys ++ attrsBytes E g rec.attrs) ++
              E.newline],
          outcomes := sink.outcomes.tail } := by
  have i1 := reachable_inv E _ hr
  have r2 := Reachable.withAttrs _ h0 xs hr hm
  have b1 := (WithAttrs_run E h0 xs S.world.heap (i1.ctx _ hm).1 (i1.ctx _ hm).2).2.1
  have m1 := List.mem_cons_self (h0.WithAttrs E xs S.world.heap).1 S.handlers
  have r3 := Reachable.withGroup _ _ g r2 m1
  have i3 := reachable_inv E _ r3
  have m2 := List.mem_cons_self ((h0.WithAttrs E xs S.world.heap).1.WithGroup g)
    ((h0.WithAttrs E xs S.world.heap).1 :: S.handlers)
  have r4 := Reachable.withAttrs _ _ ys r3 m2
  obtain ⟨p, o, sink, w1, hptr, hopts, hout, hrun, hsinks, _⟩ :=
    Handle_inv E _ (reachable_inv E _ r4) _ (List.mem_cons_self _ _) rec pick
  have hgrp : ((h0.WithAttrs E xs S.world.heap).1.WithGroup g).group = g :=
    WithGroup_root _ hg g
  have b3 : (((h0.WithAttrs E xs S.world.heap).1.WithGroup g).WithAttrs E ys
        (h0.WithAttrs E xs S.world.heap).2).1.context.bytes
        (((h0.WithAttrs E xs S.world.heap).1.WithGroup g).WithAttrs E ys
          (h0.WithAttrs E xs S.world.heap).2).2 =
      (h0.WithAttrs E xs S.world.heap).1.context.bytes (h0.WithAttrs E xs S.world.heap).2 ++
        attrsBytes E g ys := by
    have := (WithAttrs_run E ((h0.WithAttrs E xs S.world.heap).1.WithGroup g) ys
      (h0.WithAttrs E xs S.world.heap).2 (i3.ctx _ m2).1 (i3.ctx _ m2).2).2.1
    rw [hgrp] at this
    exact this
  rw [b1, hc, hg, List.nil_append] at b3
  have hline : lineBytes E o
      (((h0.WithAttrs E xs S.world.heap).1.WithGroup g).WithAttrs E ys
        (h0.WithAttrs E xs S.world.heap).2).1.group
      ((((h0.WithAttrs E xs S.world.heap).1.WithGroup g).WithAttrs E ys
        (h0.WithAttrs E xs S.world.heap).2).1.context.bytes
        (((h0.WithAttrs E xs S.world.heap).1.WithGroup g).WithAttrs E ys
          (h0.WithAttrs E xs S.world.heap).2).2) rec =
      E.timestamp rec.Time ++ E.level rec.Level ++ sourceBytes E o rec ++
        E.message rec.Message ++
        (attrsBytes E "" xs ++ attrsBytes E g ys ++ attrsBytes E g rec.attrs) ++
        E.newline := by
    have hgrp2 : (((h0.WithAttrs E xs S.world.heap).1.WithGroup g).WithAttrs E ys
        (h0.WithAttrs E xs S.world.heap).2).1.group = g := hgrp
    rw [b3, hgrp2]
    simp [lineBytes]
  refine ⟨p, o, sink, w1, _, hptr, hopts, hout, hrun, ?_⟩
  rw [hsinks, Write_fst]
  exact congrArg (fun l => S.world.sinks.set h0.out
    { written := sink.written ++ [l], outcomes := sink.outcomes.tail }) hline

/-- C6: from a new root handler, bind `xs`, enter group `g`, bind `ys`, and handle a
record: `Handle` returns and the line it writes has, between the message and the
line terminator, the rendering of `xs` under no group, then of `ys` under `g`, then of
the record's attributes under `g`. -/
theorem Handle_after_groups (E : Env) (S : System) (hr : Reachable E S) (out : Nat)
    (opts : Option Nat) (ho : out < S.world.sinks.length)
    (hp : ∀ p, opts = some p → p < S.world.options.length) (g : String)
    (xs ys : List Attr) (rec : Record) (pick : Option Nat) :
    ∃ p o sink w1 err,
      (NewHandler out opts S.world).1.opts = some p ∧
      (NewHandler out opts S.world).2.options.get? p = some o ∧
      S.world.sinks.get? out = some sink ∧
      ((((NewHandler out opts S.world).1.WithAttrs E xs S.world.heap).1.WithGroup g).WithAttrs
          E ys ((NewHandler out opts S.world).1.WithAttrs E xs S.world.heap).2).1.Handle
        E rec pick
        { (NewHandler out opts S.world).2 with
          heap := ((((NewHandler out opts S.world).1.WithAttrs E xs
            S.world.heap).1.WithGroup g).WithAttrs E ys
            ((NewHandler out opts S.world).1.WithAttrs E xs S.world.heap).2).2 } =
        some (w1, err) ∧
      w1.sinks = S.world.sinks.set out
        { written := sink.written ++
            [E.timestamp rec.Time ++ E.level rec.Level ++ sourceBytes E o rec ++
              E.message rec.Message ++
              (attrsBytes E "" xs ++ attrsBytes E g ys ++ attrsBytes E g rec.attrs) ++
              E.newline],
          outcomes := sink.outcomes.tail } :=
  Handle_after_groups_from E _ (Reachable.newHandler S out opts hr ho hp)
    (NewHandler out opts S.world).1 (List.mem_cons_self _ _) rfl
    (by simp [NewHandler, buffer.bytes]) g xs ys rec pick

set_option maxRecDepth 100000 in
/-- The witness of C6: the example program's `With("foo", "bar")`, `WithGroup("g")`,
`With("bar", "baz")` and `Info("group info", "attr", "value")`. -/
theorem Handle_after_groups_witness :
    (attrsBytes specEnv "" [Attr.ofString "foo" "bar"] ++
        attrsBytes specEnv "g" [Attr.ofString "bar" "baz"] ++
        attrsBytes specEnv "g" groupRecord.attrs = bytesOf " foo=bar g.bar=baz g.attr=value") ∧
    (((((NewHandler 0 (some 0) demoWorld).1.WithAttrs specEnv [Attr.ofString "foo" "bar"]
            demoWorld.heap).1.WithGroup "g").WithAttrs specEnv [Attr.ofString "bar" "baz"]
          ((NewHandler 0 (some 0) demoWorld).1.WithAttrs specEnv [Attr.ofString "foo" "bar"]
            demoWorld.heap).2).1.Handle specEnv groupRecord none
        { (NewHandler 0 (some 0) demoWorld).2 with
          heap := ((((NewHandler 0 (some 0) demoWorld).1.WithAttrs specEnv
            [Attr.ofString "foo" "bar"] demoWorld.heap).1.WithGroup "g").WithAttrs specEnv
            [Attr.ofString "bar" "baz"]
            ((NewHandler 0 (some 0) demoWorld).1.WithAttrs specEnv [Attr.ofString "foo" "bar"]
              demoWorld.heap).2).2 }).map (fun r => (r.1.sinks, r.2)) =
      some ([⟨[bytesOf "0 INF pc7 \"group info\" foo=bar g.bar=baz g.attr=value\n"], []⟩],
        none) ∧
    ∃ p o sink w1 err,
      (NewHandler 0 (some 0) demoWorld).1.opts = some p ∧
      (NewHandler 0 (some 0) demoWorld).2.options.get? p = some o ∧
      demoWorld.sinks.get? 0 = some sink ∧
      ((((NewHandler 0 (some 0) demoWorld).1.WithAttrs specEnv [Attr.ofString "foo" "bar"]
            demoWorld.heap).1.WithGroup "g").WithAttrs specEnv [Attr.ofString "bar" "baz"]
          ((NewHandler 0 (some 0) demoWorld).1.WithAttrs specEnv [Attr.ofString "foo" "bar"]
            demoWorld.heap).2).1.Handle specEnv groupRecord none
        { (NewHandler 0 (some 0) demoWorld).2 with
          heap := ((((NewHandler 0 (some 0) demoWorld).1.WithAttrs specEnv
            [Attr.ofString "foo" "bar"] demoWorld.heap).1.WithGroup "g").WithAttrs specEnv
            [Attr.ofString "bar" "baz"]
            ((NewHandler 0 (some 0) demoWorld).1.WithAttrs specEnv [Attr.ofString "foo" "bar"]
              demoWorld.heap).2).2 } =
        some (w1, err) ∧
      w1.sinks = demoWorld.sinks.set 0
        { written := sink.written ++
            [specEnv.timestamp groupRecord.Time ++ specEnv.level groupRecord.Level ++
              sourceBytes specEnv o groupRecord ++ specEnv.message groupRecord.Message ++
              (attrsBytes specEnv "" [Attr.ofString "foo" "bar"] ++
                attrsBytes specEnv "g" [Attr.ofString "bar" "baz"] ++
                attrsBytes specEnv "g" groupRecord.attrs) ++
              specEnv.newline],
          outcomes := sink.outcomes.tail } :=
  ⟨by decide, by decide,
    Handle_after_groups specEnv ⟨demoWorld, []⟩ (Reachable.init [] [⟨[], []⟩] [] [demoOpts]) 0
      (some 0) (by decide) (by intro p hp; cases hp; decide) "g"
      [Attr.ofString "foo" "bar"] [Attr.ofString "bar" "baz"] groupRecord none⟩

/-! ## Isolation of derived handlers -/

/-- What the clipping is for: an `append` to a slice that has room writes into the
shared array, and a second slice on that array reads other bytes afterwards. -/
theorem append_with_room_overwrites :
    (buffer.mk 0 4 8).bytes [[1, 2, 3, 4, 0, 0, 0, 0]] = [1, 2, 3, 4] ∧
      (buffer.mk 0 4 8).bytes
          (goAppend (fun c _ => 2 * c) [9, 9] ([[1, 2, 3, 4, 0, 0, 0, 0]], buffer.mk 0 2 8)).1 =
        [1, 2, 9, 9] := by
  decide

/-- C9: in a reachable state every handler's context slice is full up to its capacity,
and so is the one `WithAttrs` returns; a call of `WithAttrs` on a handler `s1` leaves
the context bytes of every handler of the state as they were (of `s1`, of the handler
it was derived from, of its siblings), so `Handle` on any of them writes the same
line and returns the same error after the call as before; `WithGroup` touches no
heap at all, the handler it returns shares the context slice of its receiver. -/
theorem WithAttrs_isolation (E : Env) (S : System) (hr : Reachable E S) (s1 : ConsoleHandler)
    (hm : s1 ∈ S.handlers) (attrs : List Attr) :
    (∀ k ∈ S.handlers, k.context.cap = k.context.len) ∧
      (s1.WithAttrs E attrs S.world.heap).1.context.cap =
        (s1.WithAttrs E attrs S.world.heap).1.context.len ∧
      (∀ k ∈ S.handlers,
        k.context.bytes (s1.WithAttrs E attrs S.world.heap).2 = k.context.bytes S.world.heap) ∧
      (∀ k ∈ S.handlers, ∀ (rec : Record) (pick : Option Nat),
        (k.Handle E rec pick { S.world with heap := (s1.WithAttrs E attrs S.world.heap).2 }).map
            (fun r => (r.1.sinks, r.2)) =
          (k.Handle E rec pick S.world).map (fun r => (r.1.sinks, r.2))) ∧
      (∀ name, (s1.WithGroup name).context = s1.context) := by
  have hI := reachable_inv E S hr
  have hI2 := reachable_inv E _ (Reachable.withAttrs S s1 attrs hr hm)
  obtain ⟨hown, _, _, hcl⟩ :=
    WithAttrs_run E s1 attrs S.world.heap (hI.ctx s1 hm).1 (hI.ctx s1 hm).2
  have hkept : ∀ k ∈ S.handlers,
      k.context.bytes (s1.WithAttrs E attrs S.world.heap).2 = k.context.bytes S.world.heap :=
    fun k hk => hown.bytes_kept k.context (hI.ctx k hk).1 (Or.inr trivial)
  refine ⟨fun k hk => (hI.ctx k hk).2, hcl, hkept, ?_, fun _ => rfl⟩
  intro k hk rec pick
  obtain ⟨p1, o1, out1, w1, hptr1, hopts1, hout1, hrun1, hs1, _⟩ :=
    Handle_inv E S hI k hk rec pick
  obtain ⟨p2, o2, out2, w2, hptr2, hopts2, hout2, hrun2, hs2, _⟩ :=
    Handle_inv E _ hI2 k (List.mem_cons_of_mem _ hk) rec pick
  have hpp : p2 = p1 := Option.some.inj (hptr2.symm.trans hptr1)
  subst hpp
  have ho : o2 = o1 := Option.some.inj (hopts2.symm.trans hopts1)
  have hout : out2 = out1 := Option.some.inj (hout2.symm.trans hout1)
  subst ho hout
  simp only at hrun2 hs2
  rw [hrun1, hrun2, Option.map_some', Option.map_some', hs1, hs2]
  simp only [hkept k hk]

/-- The witness of C9: the handler bound to `foo=bar` and two handlers derived from it;
attributes are bound on the one in group `a`. -/
theorem WithAttrs_isolation_witness :
    (demoBound.1.context.bytes siblingSystem.world.heap = bytesOf " foo=bar" ∧
      ((demoBound.1.WithGroup "a").WithAttrs specEnv [Attr.ofString "bar" "baz"]
          siblingSystem.world.heap).1.context.bytes
        ((demoBound.1.WithGroup "a").WithAttrs specEnv [Attr.ofString "bar" "baz"]
          siblingSystem.world.heap).2 = bytesOf " foo=bar a.bar=baz" ∧
      (demoBound.1.WithGroup "b").context.bytes
        ((demoBound.1.WithGroup "a").WithAttrs specEnv [Attr.ofString "bar" "baz"]
          siblingSystem.world.heap).2 = bytesOf " foo=bar") ∧
    ((∀ k ∈ siblingSystem.handlers, k.context.cap = k.context.len) ∧
      ((demoBound.1.WithGroup "a").WithAttrs specEnv [Attr.ofString "bar" "baz"]
          siblingSystem.world.heap).1.context.cap =
        ((demoBound.1.WithGroup "a").WithAttrs specEnv [Attr.ofString "bar" "baz"]
          siblingSystem.world.heap).1.context.len ∧
      (∀ k ∈ siblingSystem.handlers,
        k.context.bytes ((demoBound.1.WithGroup "a").WithAttrs specEnv
            [Attr.ofString "bar" "baz"] siblingSystem.world.heap).2 =
          k.context.bytes siblingSystem.world.heap) ∧
      (∀ k ∈ siblingSystem.handlers, ∀ (rec : Record) (pick : Option Nat),
        (k.Handle specEnv rec pick
            { siblingSystem.world with
              heap := ((demoBound.1.WithGroup "a").WithAttrs specEnv
                [Attr.ofString "bar" "baz"] siblingSystem.world.heap).2 }).map
            (fun r => (r.1.sinks, r.2)) =
          (k.Handle specEnv rec pick siblingSystem.world).map (fun r => (r.1.sinks, r.2))) ∧
      (∀ name, ((demoBound.1.WithGroup "a").WithGroup name).context =
        (demoBound.1.WithGroup "a").context)) :=
  ⟨by decide,
    WithAttrs_isolation specEnv siblingSystem
      (Reachable.withGroup _ demoBound.1 "b"
        (Reachable.withGroup _ demoBound.1 "a"
          (Reachable.withAttrs demoSystem demoRoot [Attr.ofString "foo" "bar"]
            (demoSystem_reachable specEnv) (List.mem_cons_self _ _))
          (List.mem_cons_self _ _))
        (List.mem_cons_of_mem _ (List.mem_cons_self _ _)))
      (demoBound.1.WithGroup "a") (List.mem_cons_of_mem _ (List.mem_cons_self _ _))
      [Attr.ofString "bar" "baz"]⟩

end console
